import Mathlib

/-!
Verification development for the UncertainSCI core
(src/opoly1d.py and src/UncertainSCI/composite.py).

Numbers that the Python code manipulates as IEEE floats are modelled as
exact rationals (ℚ) where the code performs only field operations and
comparisons, and as exact reals (ℝ) where square roots or
eigendecompositions occur.  The external composite-quadrature primitive
gq_modification_composite (UncertainSCI.utils.quad, an out-of-scope
collaborator per the specification) is abstracted as an oracle argument,
and symmetric eigendecompositions (numpy.linalg.eigh) are supplied as
data satisfying the decomposition equations, since the code treats both
as black boxes.
-/

namespace UncertainSCI

/-! ### compute_subintervals (src/UncertainSCI/composite.py, lines 9-72)

A singularity descriptor is a triple (location, left strength, right
strength); a subinterval row is (left endpoint, right endpoint,
right-side strength of the left endpoint, left-side strength of the
right endpoint).  The tolerance is the literal 1e-8 from the source. -/

def subTol : ℚ := 1 / 100000000

/-- Insertion of one singularity descriptor into a list sorted by
location; models the effect of np.argsort ordering on the kept
singularities (keys are distinct in every non-error run, so stability
is irrelevant). -/
def insertSing (x : ℚ × ℚ × ℚ) : List (ℚ × ℚ × ℚ) → List (ℚ × ℚ × ℚ)
  | [] => [x]
  | y :: ys => if x.1 ≤ y.1 then x :: y :: ys else y :: insertSing x ys

/-- Sort a singularity list by location (models the argsort reordering
of singularities, strength_left and strength_right together). -/
def sortSing : List (ℚ × ℚ × ℚ) → List (ℚ × ℚ × ℚ)
  | [] => []
  | x :: xs => insertSing x (sortSing xs)

/-- The discard loop (lines 22-30): a singularity is dropped when its
location s satisfies s < a - tol or s > b + tol. -/
def keepSing (a b : ℚ) : List (ℚ × ℚ × ℚ) → List (ℚ × ℚ × ℚ)
  | [] => []
  | s :: rest =>
    if s.1 < a - subTol ∨ s.1 > b + subTol then keepSing a b rest
    else s :: keepSing a b rest

/-- Models np.any(np.diff(singularities) < tol) on the sorted list. -/
def anyCloseAdjacent : List (ℚ × ℚ × ℚ) → Bool
  | x :: y :: rest => if y.1 - x.1 < subTol then true else anyCloseAdjacent (y :: rest)
  | _ => false

/-- Models the row-building loop: subintervals[q] =
[sing[q], sing[q+1], strength_right[q], strength_left[q+1]]. -/
def mkRows : List (ℚ × ℚ × ℚ) → List (ℚ × ℚ × ℚ × ℚ)
  | x :: y :: rest => (x.1, y.1, x.2.2, y.2.1) :: mkRows (y :: rest)
  | _ => []

/-- compute_subintervals(a, b, singularity_list): discard singularities
outside [a-tol, b+tol], sort by location, raise ValueError on
overlapping singularities, synthesize zero-strength endpoint entries
when the extreme singularities do not match a or b, and emit the rows.
The ValueError of the source is modelled as Except.error with the
source's message. -/
def compute_subintervals (a b : ℚ) (sing : List (ℚ × ℚ × ℚ)) :
    Except String (List (ℚ × ℚ × ℚ × ℚ)) :=
  let sorted := sortSing (keepSing a b sing)
  if anyCloseAdjacent sorted then
    .error "Overlapping singularities were specified. Singularities must be unique"
  else
    match sorted with
    | [] => .ok [(a, b, 0, 0)]
    | s0 :: rest =>
      let slast := (s0 :: rest).getLastD s0
      let ext1 :=
        if |slast.1 - b| ≤ subTol then s0 :: rest else (s0 :: rest) ++ [(b, 0, 0)]
      let ext2 := if |s0.1 - a| ≤ subTol then ext1 else (a, 0, 0) :: ext1
      .ok (mkRows ext2)

/-! ### The adaptive quadrature refinement loop
(Composite.eval_integral, src/UncertainSCI/composite.py lines 425-459;
Composite.eval_disc_integral, lines 726-745, has the identical loop).

Inside one call the interval [a,b], the modification roots, the sign
and the integrand are fixed, so the estimate produced by one pass is a
deterministic function E of the quadrature order N_quad alone (the pass
rebuilds find_jacobi / measure_mod / gauss_quadrature_driver data from
N_quad; those ingredients come from the external JacobiPolynomials
collaborator and are absorbed into E).  The source loop has no
iteration cap; the model adds an explicit fuel argument so that
divergence is expressible as: no fuel suffices. -/

/-- One state of the loop: s is the previous estimate, Nquad the order
of the next pass.  Executes: s_new := E Nquad; stop with s_new when
|s - s_new| ≤ tol, else continue at order Nquad + Nstep. -/
def adaptLoop (E : ℕ → ℚ) (tol : ℚ) (Nstep : ℕ) : ℚ → ℕ → ℕ → Option ℚ
  | s, Nquad, fuel =>
    let s_new := E Nquad
    if |s - s_new| ≤ tol then some s_new
    else
      match fuel with
      | 0 => none
      | f + 1 => adaptLoop E tol Nstep s_new (Nquad + Nstep) f

/-- Composite.eval_integral's control flow: the first estimate is taken
at order Nstart (= len(zeros) + N_start in the source), each further
pass increases the order by Nstep, and the loop returns s_new as soon
as two successive estimates agree within tol. -/
def eval_integral (E : ℕ → ℚ) (tol : ℚ) (Nstart Nstep : ℕ) (fuel : ℕ) : Option ℚ :=
  adaptLoop E tol Nstep (E Nstart) (Nstart + Nstep) fuel

/-! ### gq_modification_unbounded_composite
(src/UncertainSCI/composite.py, lines 109-164)

The bounded-interval integral computed in one step — the value of
gq_modification_composite on [l, r] — is a deterministic function
I l r of the endpoints (integrand, order N, adaptive flag and kwargs
are fixed during a call), abstracted as an oracle.  Endpoints of the
requested domain may be ±∞. -/

/-- A domain endpoint: -np.inf, a finite value, or np.inf. -/
inductive Endpt where
  | ninf : Endpt
  | fin (x : ℚ) : Endpt
  | pinf : Endpt
deriving DecidableEq

/-- Result of gq_modification_unbounded_composite.  unboundLocalError
models Python's UnboundLocalError raised at `return integral` when no
branch assigned the variable; noFuel marks exhaustion of the fuel that
the model adds to the source's unbounded while loops; value carries the
returned sum together with the trace of intervals integrated over, in
evaluation order. -/
inductive GQResult where
  | unboundLocalError : GQResult
  | noFuel : GQResult
  | value (s : ℚ) (trace : List (ℚ × ℚ)) : GQResult
deriving DecidableEq

/-- The leftward extension loop (`integral_new = 1.` then, while
|integral_new| > tol: `r = l; l = r - step; integral_new = ...;
integral += integral_new`).  The state Q is the previous increment —
initially the sentinel 1, so that for tol >= 1 the loop body never
runs — and l is the current leftmost covered point; the loop condition
is tested at the top of each iteration, so the step whose increment
first falls within tol is still executed and added.  Returns the total
of the increments added and the list of intervals integrated, in
evaluation order. -/
def walkLeft (I : ℚ → ℚ → ℚ) (tol step : ℚ) : ℚ → ℚ → ℕ → Option (ℚ × List (ℚ × ℚ))
  | Q, l, fuel =>
    if |Q| ≤ tol then some (0, [])
    else
      match fuel with
      | 0 => none
      | f + 1 =>
        let Qn := I (l - step) l
        match walkLeft I tol step Qn (l - step) f with
        | none => none
        | some (s, T) => some (Qn + s, (l - step, l) :: T)

/-- The rightward extension loop (`l = r; r = l + step`), with the same
sentinel-primed top-of-loop test: Q is the previous increment
(initially the sentinel 1) and r the current rightmost covered point.
-/
def walkRight (I : ℚ → ℚ → ℚ) (tol step : ℚ) : ℚ → ℚ → ℕ → Option (ℚ × List (ℚ × ℚ))
  | Q, r, fuel =>
    if |Q| ≤ tol then some (0, [])
    else
      match fuel with
      | 0 => none
      | f + 1 =>
        let Qn := I r (r + step)
        match walkRight I tol step Qn (r + step) f with
        | none => none
        | some (s, T) => some (Qn + s, (r, r + step) :: T)

/-- gq_modification_unbounded_composite(integrand, a, b, N, ...): for a
doubly-infinite domain integrate the reference interval [-1, 1] and
walk left from -1 and right from 1; for a = -inf integrate [b-step, b]
first and walk left from b - step; for b = inf integrate [a, a+step]
first and walk right from a + step.  Any other endpoint combination
reaches `return integral` with the variable unassigned (the degenerate
patterns (ninf, ninf) and (pinf, pinf), which the floating-point source
would feed IEEE infinities into arithmetic for, are mapped to the error
result as well; no claim touches them). -/
def gq_modification_unbounded_composite (I : ℚ → ℚ → ℚ) (tol step : ℚ)
    (a b : Endpt) (fuel : ℕ) : GQResult :=
  match a, b with
  | .ninf, .pinf =>
    let s0 := I (-1) 1
    match walkLeft I tol step 1 (-1) fuel, walkRight I tol step 1 1 fuel with
    | some (sl, Tl), some (sr, Tr) =>
      .value (s0 + sl + sr) (((-1 : ℚ), (1 : ℚ)) :: (Tl ++ Tr))
    | _, _ => .noFuel
  | .ninf, .fin bv =>
    let s0 := I (bv - step) bv
    match walkLeft I tol step 1 (bv - step) fuel with
    | some (sl, Tl) => .value (s0 + sl) ((bv - step, bv) :: Tl)
    | none => .noFuel
  | .fin av, .pinf =>
    let s0 := I av (av + step)
    match walkRight I tol step 1 (av + step) fuel with
    | some (sr, Tr) => .value (s0 + sr) ((av, av + step) :: Tr)
    | none => .noFuel
  | _, _ => .unboundLocalError

/-! ### Recurrence tables and the Jacobi matrix (src/opoly1d.py)

A recurrence table is a sequence of pairs (alpha_n, beta_n).  Passed
tables (numpy arrays) are lists of pairs; a family's memoized
coefficient source is a function ℕ → ℝ × ℝ (its recurrence method
produces any requested prefix). -/

/-- Row n of a table held as a list; out-of-range reads (which numpy
would fault on, and which no proved statement exercises) default to
(0, 0). -/
def abGet (ab : List (ℝ × ℝ)) (n : ℕ) : ℝ × ℝ := ab.getD n (0, 0)

/-- jacobi_matrix_driver (src/opoly1d.py, lines 12-18) over a
coefficient function: diagonal entries ab[1..N, 0], sub- and
super-diagonal entries ab[1..N-1, 1]. -/
def jacobi_matrix (abf : ℕ → ℝ × ℝ) (N : ℕ) : Matrix (Fin N) (Fin N) ℝ :=
  Matrix.of fun i j =>
    if (i : ℕ) = (j : ℕ) then (abf ((i : ℕ) + 1)).1
    else if (j : ℕ) = (i : ℕ) + 1 then (abf ((i : ℕ) + 1)).2
    else if (i : ℕ) = (j : ℕ) + 1 then (abf ((j : ℕ) + 1)).2
    else 0

/-- jacobi_matrix_driver applied to a stored table. -/
def jacobi_matrix_driver (ab : List (ℝ × ℝ)) (N : ℕ) : Matrix (Fin N) (Fin N) ℝ :=
  jacobi_matrix (abGet ab) N

/-- gauss_quadrature_driver's weights (src/opoly1d.py, line 29):
ab[0,1]^2 * v[0,:]^2, where v is the orthogonal eigenvector matrix
returned by numpy.linalg.eigh for the N x N Jacobi matrix; the nodes
are the accompanying eigenvalues. -/
def gauss_quadrature_weights (ab : List (ℝ × ℝ)) {N : ℕ}
    (V : Matrix (Fin N) (Fin N) ℝ) : Fin N → ℝ :=
  fun i => (abGet ab 0).2 ^ 2 * (V ⟨0, i.pos⟩ i) ^ 2

/-! ### Polynomial evaluation (OrthogonalPolynomialBasis1D.eval,
src/opoly1d.py lines 206-239, zero-derivative path; this is the same
three-term recurrence as the module-level eval_driver that
composite.py imports). -/

/-- Orthonormal polynomial values: p_0 = 1/ab[0,1],
p_1 = 1/ab[1,1] * (x - ab[1,0]) * p_0,
p_j = 1/ab[j,1] * ((x - ab[j,0]) * p_(j-1) - ab[j-1,1] * p_(j-2)). -/
noncomputable def eval_driver (abf : ℕ → ℝ × ℝ) (x : ℝ) : ℕ → ℝ
  | 0 => 1 / (abf 0).2
  | 1 => 1 / (abf 1).2 * ((x - (abf 1).1) * (1 / (abf 0).2))
  | j + 2 => 1 / (abf (j + 2)).2 *
      ((x - (abf (j + 2)).1) * eval_driver abf x (j + 1)
        - (abf (j + 1)).2 * eval_driver abf x j)

/-- Ratio evaluation r_eval (src/opoly1d.py, lines 584-618):
r_0 = 1/ab[0,1], r_1 = 1/ab[1,1] * (x - ab[1,0]),
r_j = 1/ab[j,1] * ((x - ab[j,0]) - ab[j-1,1] / r_(j-1)). -/
noncomputable def r_eval (abf : ℕ → ℝ × ℝ) (x : ℝ) : ℕ → ℝ
  | 0 => 1 / (abf 0).2
  | 1 => 1 / (abf 1).2 * (x - (abf 1).1)
  | j + 2 => 1 / (abf (j + 2)).2 *
      ((x - (abf (j + 2)).1) - (abf (j + 1)).2 / r_eval abf x (j + 1))

/-! ### Christoffel-normalized polynomials (qpoly1d_eval,
src/opoly1d.py lines 628-658).  The state after computing q_j is
((q_j, qt_j), q_(j-1)); the source's first step qt_1 =
1/ab[1,1]*(x-ab[1,0])*q_0 is the j = 0 instance of the general step
with q_(-1) = 0 (the qt_0 value is never consumed because it is
multiplied by q_(-1) = 0). -/

/-- qstate j = ((q_j, qt_j), q_(j-1)) where
qt_(j+1) = 1/ab[j+1,1] * ((x - ab[j+1,0]) * q_j
  - ab[j,1] * q_(j-1) / sqrt(1 + qt_j^2)) and
q_(j+1) = qt_(j+1) / sqrt(1 + qt_(j+1)^2), with q_0 = 1. -/
noncomputable def qstate (abf : ℕ → ℝ × ℝ) (x : ℝ) : ℕ → (ℝ × ℝ) × ℝ
  | 0 => ((1, 0), 0)
  | j + 1 =>
    let s := qstate abf x j
    let qt := 1 / (abf (j + 1)).2 *
      ((x - (abf (j + 1)).1) * s.1.1 - (abf j).2 * s.2 / Real.sqrt (1 + s.1.2 ^ 2))
    ((qt / Real.sqrt (1 + qt ^ 2), qt), s.1.1)

/-- q_k(x); the source expression qpoly1d_eval(x, n)[0,-1] is
qpoly_val at k = n - 1. -/
noncomputable def qpoly_val (abf : ℕ → ℝ × ℝ) (x : ℝ) (k : ℕ) : ℝ :=
  ((qstate abf x k).1).1

/-! ### Measure modification (src/opoly1d.py, lines 690-743)

Both methods receive a table ab as an argument and evaluate the
ratio/Christoffel functions through self (the owning family, whose
coefficient source is abf).  A table too short for the requested
degree makes them return the error string at once; this early return
is modelled as Except.error carrying the source's string. -/

/-- recurrence_lin_mod_jacobi(ab, N, y0) (lines 721-743): requires
ab.shape[0] >= N+2, else returns the error immediately.  Otherwise
row j of the result is
(ab[j,0] + pre_alpha_j, sqrt(ab[j,1]^2 * pre_beta_j)) with
pre_alpha_0 = ab[1,1]/r_2, pre_beta_0 = ab[1,1]*r_2,
pre_alpha_j = ab[j+1,1]/r_(j+2) - ab[j,1]/r_(j+1),
pre_beta_j = ab[j+1,1]*r_(j+2) / (ab[j,1]*r_(j+1)), r_k = r_eval(y0, k). -/
noncomputable def recurrence_lin_mod_jacobi (abf : ℕ → ℝ × ℝ) (ab : List (ℝ × ℝ))
    (N : ℕ) (y0 : ℝ) : Except String (List (ℝ × ℝ)) :=
  if ab.length < N + 2 then .error "Error, requires more recurrence pairs"
  else
    let r := fun k => r_eval abf y0 k
    .ok ((List.range (N + 1)).map fun j =>
      ((abGet ab j).1 +
        (if j = 0 then (abGet ab 1).2 / r 2
         else (abGet ab (j + 1)).2 / r (j + 2) - (abGet ab j).2 / r (j + 1)),
       Real.sqrt ((abGet ab j).2 ^ 2 *
        (if j = 0 then (abGet ab 1).2 * r 2
         else (abGet ab (j + 1)).2 * r (j + 2) / ((abGet ab j).2 * r (j + 1))))))

/-- recurrence_quad_mod_jacobi(ab, N, z0) (lines 690-719): requires
ab.shape[0] >= N+3, else returns the error immediately.  Otherwise
row j of the result is
(ab[j+1,0] + pre_alpha_j, sqrt(ab[j+1,1]^2 * pre_beta_j)) with, writing
q_k = qpoly_val(z0, k) (the source's qpoly1d_eval(z0, k+1)[0,-1]),
pre_alpha_j = ab[j+2,1]*q_(j+2)*q_(j+1)/sqrt(1+q_(j+1)^2)
            - ab[j+1,1]*q_(j+1)*q_j/sqrt(1+q_j^2),
pre_beta_0 = (1+q_1^2)/q_0^2 and
pre_beta_j = (1+q_(j+1)^2)/(1+q_j^2) for j >= 1. -/
noncomputable def recurrence_quad_mod_jacobi (abf : ℕ → ℝ × ℝ) (ab : List (ℝ × ℝ))
    (N : ℕ) (z0 : ℝ) : Except String (List (ℝ × ℝ)) :=
  if ab.length < N + 3 then .error "Error, requires more recurrence pairs"
  else
    let q := fun k => qpoly_val abf z0 k
    .ok ((List.range (N + 1)).map fun j =>
      ((abGet ab (j + 1)).1 +
        ((abGet ab (j + 2)).2 * q (j + 2) * q (j + 1) / Real.sqrt (1 + q (j + 1) ^ 2)
          - (abGet ab (j + 1)).2 * q (j + 1) * q j / Real.sqrt (1 + q j ^ 2)),
       Real.sqrt ((abGet ab (j + 1)).2 ^ 2 *
        (if j = 0 then (1 + q 1 ^ 2) / q 0 ^ 2
         else (1 + q (j + 1) ^ 2) / (1 + q j ^ 2)))))

/-! ### gauss_radau_quadrature (src/opoly1d.py, lines 347-370) -/

/-- The perturbed table cd: cd = ab.copy(); cd[N,0] += c * cd[N,1]
with c = r_eval(anchor, N). -/
noncomputable def radau_mod_ab (abf : ℕ → ℝ × ℝ) (N : ℕ) (anchor : ℝ) : ℕ → ℝ × ℝ :=
  fun m =>
    if m = N then ((abf N).1 + r_eval abf anchor N * (abf N).2, (abf N).2)
    else abf m

/-- The matrix J that gauss_radau_quadrature eigendecomposes: the N x N
Jacobi matrix of the perturbed table cd (only its last diagonal entry
cd[N,0] differs from the family's Jacobi matrix). -/
noncomputable def gauss_radau_jacobi (abf : ℕ → ℝ × ℝ) (N : ℕ) (anchor : ℝ) :
    Matrix (Fin N) (Fin N) ℝ :=
  jacobi_matrix (radau_mod_ab abf N anchor) N

/-- gauss_radau_quadrature's returned weights (line 370): v[0,:]^2,
the squared first components of the eigh eigenvectors, with no
ab[0,1]^2 factor. -/
def gauss_radau_weights {N : ℕ} (V : Matrix (Fin N) (Fin N) ℝ) : Fin N → ℝ :=
  fun i => (V ⟨0, i.pos⟩ i) ^ 2

/-- The vector (p_0(anchor), ..., p_(N-1)(anchor)) of orthonormal
polynomial values at the anchor; it is the eigenvector of the
perturbed Jacobi matrix with eigenvalue anchor. -/
noncomputable def radau_eigvec (abf : ℕ → ℝ × ℝ) (anchor : ℝ) (N : ℕ) : Fin N → ℝ :=
  fun j => eval_driver abf anchor (j : ℕ)

/-! ### compute_ttr_bounded (src/UncertainSCI/composite.py, lines 75-105)

The external primitive gq_modification_composite is abstracted as an
oracle Q taking the integrand and the quadrature order (the interval
[a, b] and the subinterval table are fixed for the whole call and are
absorbed into Q).  The in-place numpy updates are explicit functional
updates, threading the provisional row n+1 through the two integrand
closures exactly as the source reads it at integration time. -/

/-- Functional update of a coefficient table at one row. -/
def updRow (abf : ℕ → ℝ × ℝ) (k : ℕ) (v : ℝ × ℝ) : ℕ → ℝ × ℝ :=
  fun m => if m = k then v else abf m

/-- The body of the loop over n (lines 94-102): guess row n+1 from row
n; alpha update ab[n+1,0] += ab[n,1] * Q(w * p_n * p_(n+1), n+1+Nquad)
with p evaluated on the table holding the guessed row; beta update
ab[n+1,1] *= sqrt(Q(w * p_(n+1)^2, n+1+Nquad)) with p evaluated on the
table holding the already-updated alpha. -/
noncomputable def ttrStep (Q : (ℝ → ℝ) → ℕ → ℝ) (weight : ℝ → ℝ) (Nquad : ℕ)
    (abf : ℕ → ℝ × ℝ) (n : ℕ) : ℕ → ℝ × ℝ :=
  let ab1 := updRow abf (n + 1) (abf n)
  let alpha := (ab1 (n + 1)).1 + (ab1 n).2 *
      Q (fun x => weight x * eval_driver ab1 x n * eval_driver ab1 x (n + 1)) (n + 1 + Nquad)
  let ab2 := updRow ab1 (n + 1) (alpha, (ab1 (n + 1)).2)
  let beta := (ab2 (n + 1)).2 *
      Real.sqrt (Q (fun x => weight x * eval_driver ab2 x (n + 1) ^ 2) (n + 1 + Nquad))
  updRow ab2 (n + 1) (alpha, beta)

/-- The table after initializing row 0 (ab = zeros; ab[0,1] =
sqrt(Q(weight, Nquad))) and running k iterations of the loop. -/
noncomputable def ttrTable (Q : (ℝ → ℝ) → ℕ → ℝ) (weight : ℝ → ℝ) (Nquad : ℕ) :
    ℕ → ℕ → ℝ × ℝ
  | 0 => updRow (fun _ => (0, 0)) 0 (0, Real.sqrt (Q weight Nquad))
  | k + 1 => ttrStep Q weight Nquad (ttrTable Q weight Nquad k) k

/-- compute_ttr_bounded(a, b, weight, N, ...) for N >= 1: the loop runs
n = 0 .. N-2, so the returned N x 2 table is the state after N-1
iterations. -/
noncomputable def compute_ttr_bounded (Q : (ℝ → ℝ) → ℕ → ℝ) (weight : ℝ → ℝ)
    (Nquad N : ℕ) : ℕ → ℝ × ℝ :=
  ttrTable Q weight Nquad (N - 1)

/-! ### Composite.recurrence (src/UncertainSCI/composite.py, lines
507-557).  At step i the source sums eval_extend over the current
demarcations for the alpha integral and again for the beta integral;
each eval_extend call chains into find_jacobi and the external
JacobiPolynomials collaborator, so the two per-step sums are abstracted
as oracles sA and sB (sB 0 being the step-0 sum that defines b_0).
The recursion itself is the source's:
ab[0] = (0, sqrt(sB 0)),
ab[i,0] = ab[i-1,0] + ab[i-1,1] * sA i,
ab[i,1] = ab[i-1,1] * sqrt(sB i). -/
noncomputable def composite_recurrence (sA sB : ℕ → ℝ) : ℕ → ℝ × ℝ
  | 0 => (0, Real.sqrt (sB 0))
  | i + 1 =>
    let p := composite_recurrence sA sB i
    (p.1 + p.2 * sA (i + 1), p.2 * Real.sqrt (sB (i + 1)))

/-! ### compute_ttr_bounded_composite (src/UncertainSCI/composite.py,
lines 188-234) and compute_ttr_unbounded_composite (lines 236-267).
Row 0 is (0, sqrt of the weight's integral estimate) (lines 203, 240);
the loop guesses row n+1 from row n and executes
ab[n+1,0] += ab[n,1] * estimate and ab[n+1,1] *= sqrt(estimate)
(lines 223/232 and 259/265).  The two per-step estimates — calls of the
external composite-quadrature primitive whose roots, break points and
leading-coefficient side channels are built from the current table via
the external eigensolver (gauss_quadrature_driver) — are abstracted as
qA and qB, with qB 0 the row-0 estimate. -/
noncomputable def compute_ttr_composite (qA qB : ℕ → ℝ) : ℕ → ℝ × ℝ
  | 0 => (0, Real.sqrt (qB 0))
  | n + 1 =>
    let p := compute_ttr_composite qA qB n
    (p.1 + p.2 * qA (n + 1), p.2 * Real.sqrt (qB (n + 1)))

/-! ### Composite.stieltjes (src/UncertainSCI/composite.py, lines
560-630).  Row 0 is (0, sqrt(s)) with s the summed eval_extend integral
of the weight (line 575).  For i >= 1 the alpha entry is assigned (not
accumulated) the moment integral <x p_(i-1), p_(i-1)> (line 597), and
the beta entry is sqrt(s_1 - s_2) (line 628), where s_2 = 0 when i = 1
(line 609).  The three per-step integral sums are abstracted as
oracles. -/
noncomputable def stieltjes_recurrence (sAlpha s1 s2 : ℕ → ℝ) (s0 : ℝ) : ℕ → ℝ × ℝ
  | 0 => (0, Real.sqrt s0)
  | i + 1 =>
    (sAlpha (i + 1),
      Real.sqrt (s1 (i + 1) - (if i + 1 = 1 then 0 else s2 (i + 1))))

/-! ### Composite.aPC (src/UncertainSCI/composite.py, lines 788-833).
Row 0 is (0, nc[0]) (line 806), where nc[0] = sqrt(...) is the first
normalization constant from eval_nc (line 685; nc0sq abstracts the
summed integral under the sqrt).  For i >= 1 the alpha entry is the
moment integral (line 816) and the beta entry is sqrt(s_1 - s_2)
(line 831), with s_2 = 0 when i = 1 (line 826). -/
noncomputable def aPC_recurrence (sAlpha s1 s2 : ℕ → ℝ) (nc0sq : ℝ) : ℕ → ℝ × ℝ
  | 0 => (0, Real.sqrt nc0sq)
  | i + 1 =>
    (sAlpha (i + 1),
      Real.sqrt (s1 (i + 1) - (if i + 1 = 1 then 0 else s2 (i + 1))))

/-! ### OrthogonalPolynomialBasis1D.recurrence (src/opoly1d.py, lines
150-192).  The memo is the instance variable self.ab (initially the
0 x 2 array); recurrence_driver is the subclass hook that computes the
first N+1 rows from scratch.  The model returns (result, new stored
table, whether recurrence_driver was invoked). -/
def OPB_recurrence (drv : ℕ → List (ℝ × ℝ)) (stored : List (ℝ × ℝ)) (N : ℕ) :
    List (ℝ × ℝ) × List (ℝ × ℝ) × Bool :=
  if N + 1 > stored.length then (drv N, drv N, true)
  else (stored.take (N + 1), stored, false)

/-! ### markov_stiltjies (src/opoly1d.py, lines 31-102) -/

/-- Modelled from the spec: the effect of markov_stiltjies(u, n, a, b,
supp) on the caller-supplied array b.  Line 68 executes `b[0] = 1` on
the caller's array before the first quad_mod call; inside the loop the
names a, b are rebound to the arrays quad_mod returns, so the later
`b[0] = 1` writes target those fresh arrays.  quad_mod itself is
external (imported from the quad_mod module, not under src/); per the
specification's ownership rule, modification operators are pure
functions returning new tables and never alias their input, so the
caller's array receives exactly the one write of line 68. -/
def markov_stiltjies_caller_b (b : List ℝ) : List ℝ := b.set 0 1

/-! ### Concrete instances used by witnesses and counterexamples -/

/-- A stored two-row table: (alpha_0, beta_0) = (0, 3) (the alpha_0
slot is ignored by convention), (alpha_1, beta_1) = (5, 0). -/
def abPair : List (ℝ × ℝ) := [(0, 3), (5, 0)]

/-- A coefficient family with beta_0 = 3 and (alpha_k, beta_k) = (0, 1)
for k >= 1. -/
def abFam : ℕ → ℝ × ℝ := fun n => if n = 0 then (0, 3) else (0, 1)

/-- The oracle value of the composite-quadrature primitive on the zero
weight function: every quadrature estimate of the zero integrand is the
weighted sum of zeros, i.e. 0. -/
def zeroOracle : (ℝ → ℝ) → ℕ → ℝ := fun _ _ => 0

/-- A quadrature oracle whose every estimate is 1. -/
def oneOracle : (ℝ → ℝ) → ℕ → ℝ := fun _ _ => 1

/-! ## Theorems -/

/-- C3: compute_subintervals on [0,5] with singularities at 1 and 3
returns exactly the three rows (0,1), (1,3), (3,5), each row carrying
the right-side strength of the singularity at its left endpoint and the
left-side strength of the singularity at its right endpoint (for
arbitrary strength values); and with the two singularities 1 and
1 + 1e-10, which are closer than the tolerance 1e-8, it raises the
overlapping-singularities ValueError. -/
theorem C3_compute_subintervals (sl1 sr1 sl3 sr3 : ℚ) :
    compute_subintervals 0 5 [(1, sl1, sr1), (3, sl3, sr3)] =
      .ok [(0, 1, 0, sl1), (1, 3, sr1, sl3), (3, 5, sr3, 0)] ∧
    compute_subintervals 0 5 [(1, sl1, sr1), (1 + 1 / 10000000000, sl3, sr3)] =
      .error "Overlapping singularities were specified. Singularities must be unique" := by
  constructor
  · have hks : keepSing 0 5 [((1 : ℚ), sl1, sr1), (3, sl3, sr3)] =
        [(1, sl1, sr1), (3, sl3, sr3)] := by
      simp only [keepSing]
      norm_num [subTol]
    have hsort : sortSing [((1 : ℚ), sl1, sr1), (3, sl3, sr3)] =
        [(1, sl1, sr1), (3, sl3, sr3)] := by
      simp only [sortSing, insertSing]
      norm_num
    have hclose : anyCloseAdjacent [((1 : ℚ), sl1, sr1), (3, sl3, sr3)] = false := by
      simp only [anyCloseAdjacent]
      norm_num [subTol]
    have ha : ¬ (|(1 : ℚ) - 0| ≤ subTol) := by
      rw [show (1 : ℚ) - 0 = 1 by norm_num, abs_one]
      norm_num [subTol]
    have hb : ¬ (|(3 : ℚ) - 5| ≤ subTol) := by
      rw [show (3 : ℚ) - 5 = -2 by norm_num, abs_neg,
        abs_of_nonneg (by norm_num : (0 : ℚ) ≤ 2)]
      norm_num [subTol]
    simp only [compute_subintervals, hks, hsort, hclose, Bool.false_eq_true, if_false,
      List.getLastD_cons, List.getLastD_nil]
    rw [if_neg hb, if_neg ha]
    simp only [mkRows]
  · have hks : keepSing 0 5 [((1 : ℚ), sl1, sr1), (1 + 1 / 10000000000, sl3, sr3)] =
        [(1, sl1, sr1), (1 + 1 / 10000000000, sl3, sr3)] := by
      simp only [keepSing]
      norm_num [subTol]
    have hsort : sortSing [((1 : ℚ), sl1, sr1), (1 + 1 / 10000000000, sl3, sr3)] =
        [(1, sl1, sr1), (1 + 1 / 10000000000, sl3, sr3)] := by
      simp only [sortSing, insertSing]
      norm_num
    have hclose : anyCloseAdjacent [((1 : ℚ), sl1, sr1), (1 + 1 / 10000000000, sl3, sr3)] =
        true := by
      simp only [anyCloseAdjacent]
      norm_num [subTol]
    simp only [compute_subintervals, hks, hsort, hclose, if_true]

/-- C10: gq_modification_unbounded_composite with both endpoints finite
assigns the result variable in no branch and fails with
UnboundLocalError instead of returning an integral. -/
theorem C10_both_finite_error (I : ℚ → ℚ → ℚ) (tol step : ℚ) (x y : ℚ) (fuel : ℕ) :
    gq_modification_unbounded_composite I tol step (.fin x) (.fin y) fuel =
      .unboundLocalError :=
  rfl

/-- If every pair of successive estimates disagrees by more than tol,
the adaptive loop never returns, whatever fuel it is given. -/
theorem adaptLoop_never_halts (E : ℕ → ℚ) (tol : ℚ) (Nstep : ℕ) :
    ∀ fuel Nstart, (∀ k, tol < |E (Nstart + k * Nstep) - E (Nstart + (k + 1) * Nstep)|) →
      adaptLoop E tol Nstep (E Nstart) (Nstart + Nstep) fuel = none := by
  intro fuel
  induction fuel with
  | zero =>
    intro Nstart h
    have h0 : ¬ |E Nstart - E (Nstart + Nstep)| ≤ tol := by
      have := h 0
      simp only [Nat.zero_mul, Nat.add_zero, Nat.zero_add, Nat.one_mul] at this
      exact not_le.mpr this
    simp only [adaptLoop]
    rw [if_neg h0]
  | succ f ih =>
    intro Nstart h
    have h0 : ¬ |E Nstart - E (Nstart + Nstep)| ≤ tol := by
      have := h 0
      simp only [Nat.zero_mul, Nat.add_zero, Nat.zero_add, Nat.one_mul] at this
      exact not_le.mpr this
    simp only [adaptLoop]
    rw [if_neg h0]
    have harith : Nstart + Nstep + Nstep = (Nstart + Nstep) + Nstep := rfl
    have hshift : ∀ k, tol <
        |E ((Nstart + Nstep) + k * Nstep) - E ((Nstart + Nstep) + (k + 1) * Nstep)| := by
      intro k
      have := h (k + 1)
      have e1 : Nstart + (k + 1) * Nstep = (Nstart + Nstep) + k * Nstep := by ring
      have e2 : Nstart + (k + 1 + 1) * Nstep = (Nstart + Nstep) + (k + 1) * Nstep := by ring
      rwa [e1, e2] at this
    exact ih (Nstart + Nstep) hshift

/-- If the first agreement of successive estimates occurs at index k,
the adaptive loop returns the (k+1)-st estimate once the fuel is at
least k. -/
theorem adaptLoop_halts (E : ℕ → ℚ) (tol : ℚ) (Nstep : ℕ) :
    ∀ k Nstart fuel,
      (∀ j, j < k → tol < |E (Nstart + j * Nstep) - E (Nstart + (j + 1) * Nstep)|) →
      |E (Nstart + k * Nstep) - E (Nstart + (k + 1) * Nstep)| ≤ tol →
      k ≤ fuel →
      adaptLoop E tol Nstep (E Nstart) (Nstart + Nstep) fuel =
        some (E (Nstart + (k + 1) * Nstep)) := by
  intro k
  induction k with
  | zero =>
    intro Nstart fuel _ hk _
    have hk' : |E Nstart - E (Nstart + Nstep)| ≤ tol := by
      have e1 : Nstart + 0 * Nstep = Nstart := by ring
      have e2 : Nstart + (0 + 1) * Nstep = Nstart + Nstep := by ring
      rwa [e1, e2] at hk
    have egoal : Nstart + (0 + 1) * Nstep = Nstart + Nstep := by ring
    rw [egoal]
    rw [adaptLoop.eq_def]
    simp only []
    rw [if_pos hk']
  | succ k ih =>
    intro Nstart fuel hj hk hfuel
    obtain ⟨f, rfl⟩ : ∃ f, fuel = f + 1 := ⟨fuel - 1, by omega⟩
    have h0 : ¬ |E Nstart - E (Nstart + Nstep)| ≤ tol := by
      have := hj 0 (Nat.succ_pos k)
      simp only [Nat.zero_mul, Nat.add_zero, Nat.zero_add, Nat.one_mul] at this
      exact not_le.mpr this
    simp only [adaptLoop]
    rw [if_neg h0]
    have hj' : ∀ j, j < k →
        tol < |E ((Nstart + Nstep) + j * Nstep) - E ((Nstart + Nstep) + (j + 1) * Nstep)| := by
      intro j hjk
      have := hj (j + 1) (by omega)
      have e1 : Nstart + (j + 1) * Nstep = (Nstart + Nstep) + j * Nstep := by ring
      have e2 : Nstart + (j + 1 + 1) * Nstep = (Nstart + Nstep) + (j + 1) * Nstep := by ring
      rwa [e1, e2] at this
    have hk' : |E ((Nstart + Nstep) + k * Nstep) -
        E ((Nstart + Nstep) + (k + 1) * Nstep)| ≤ tol := by
      have e1 : Nstart + (k + 1) * Nstep = (Nstart + Nstep) + k * Nstep := by ring
      have e2 : Nstart + (k + 1 + 1) * Nstep = (Nstart + Nstep) + (k + 1) * Nstep := by ring
      rwa [e1, e2] at hk
    have := ih (Nstart + Nstep) f hj' hk' (by omega)
    have e3 : (Nstart + Nstep) + (k + 1) * Nstep = Nstart + (k + 1 + 1) * Nstep := by ring
    rw [e3] at this
    exact this

/-- C4: Composite.eval_integral (and eval_disc_integral, which has the
identical loop) re-evaluates the integral with the quadrature order
increased by N_step on every pass and returns exactly when two
successive estimates differ by at most tol — it then returns the newer
estimate; and since the source has no iteration cap, on inputs whose
successive estimates never agree within tol no amount of fuel makes the
loop return: the unbounded while loop diverges. -/
theorem C4_eval_integral_adaptive (E : ℕ → ℚ) (tol : ℚ) (Nstart Nstep : ℕ) :
    ((∀ k, tol < |E (Nstart + k * Nstep) - E (Nstart + (k + 1) * Nstep)|) →
      ∀ fuel, eval_integral E tol Nstart Nstep fuel = none) ∧
    (∀ k, (∀ j, j < k → tol < |E (Nstart + j * Nstep) - E (Nstart + (j + 1) * Nstep)|) →
      |E (Nstart + k * Nstep) - E (Nstart + (k + 1) * Nstep)| ≤ tol →
      ∀ fuel, k ≤ fuel →
      eval_integral E tol Nstart Nstep fuel = some (E (Nstart + (k + 1) * Nstep))) := by
  constructor
  · intro h fuel
    exact adaptLoop_never_halts E tol Nstep fuel Nstart h
  · intro k hj hk fuel hfuel
    exact adaptLoop_halts E tol Nstep k Nstart fuel hj hk hfuel

/-- Witness for C4: with the estimates E n = n and tol = 0 successive
estimates never agree, so the loop diverges for (e.g.) fuel 5; with
constant estimates 7 the loop stops at the very first comparison and
returns 7. -/
theorem C4_eval_integral_adaptive_witness :
    eval_integral (fun n => (n : ℚ)) 0 0 1 5 = none ∧
    eval_integral (fun _ => (7 : ℚ)) 0 0 1 5 = some 7 := by
  constructor
  · refine (C4_eval_integral_adaptive (fun n => (n : ℚ)) 0 0 1).1 (fun k => ?_) 5
    push_cast
    rw [abs_sub_comm]
    norm_num
  · have h := (C4_eval_integral_adaptive (fun _ => (7 : ℚ)) 0 0 1).2 0
      (fun j hj => absurd hj (Nat.not_lt_zero j)) (by norm_num) 5 (by norm_num)
    simpa using h

/-- Characterization of the leftward extension walk: if the sentinel
(or previous increment) Q is already within tol the walk adds nothing;
otherwise the intervals visited are the adjacent width-step intervals
marching left from the starting point, the returned sum is the total of
the integrals over them, every increment before the last exceeds tol in
magnitude, and the last one is within tol (and is still added). -/
theorem walkLeft_char (I : ℚ → ℚ → ℚ) (tol step : ℚ) :
    ∀ fuel Q l S T, walkLeft I tol step Q l fuel = some (S, T) →
      (|Q| ≤ tol ∧ S = 0 ∧ T = []) ∨
      (tol < |Q| ∧ ∃ k, T = (List.range (k + 1)).map
            (fun (j : ℕ) => (l - ((j : ℚ) + 1) * step, l - (j : ℚ) * step)) ∧
        S = ((List.range (k + 1)).map
            (fun (j : ℕ) => I (l - ((j : ℚ) + 1) * step) (l - (j : ℚ) * step))).sum ∧
        (∀ j : ℕ, j < k → tol < |I (l - ((j : ℚ) + 1) * step) (l - (j : ℚ) * step)|) ∧
        |I (l - ((k : ℚ) + 1) * step) (l - (k : ℚ) * step)| ≤ tol) := by
  intro fuel
  induction fuel with
  | zero =>
    intro Q l S T h
    simp only [walkLeft] at h
    by_cases hc : |Q| ≤ tol
    · rw [if_pos hc] at h
      simp only [Option.some.injEq, Prod.mk.injEq] at h
      exact Or.inl ⟨hc, h.1.symm, h.2.symm⟩
    · rw [if_neg hc] at h
      exact Option.noConfusion h
  | succ f ih =>
    intro Q l S T h
    simp only [walkLeft] at h
    by_cases hc : |Q| ≤ tol
    · rw [if_pos hc] at h
      simp only [Option.some.injEq, Prod.mk.injEq] at h
      exact Or.inl ⟨hc, h.1.symm, h.2.symm⟩
    · rw [if_neg hc] at h
      cases hrec : walkLeft I tol step (I (l - step) l) (l - step) f with
      | none => rw [hrec] at h; exact Option.noConfusion h
      | some pr =>
        obtain ⟨s', T'⟩ := pr
        rw [hrec] at h
        simp only [Option.some.injEq, Prod.mk.injEq] at h
        obtain ⟨hS, hT⟩ := h
        refine Or.inr ⟨not_le.mp hc, ?_⟩
        rcases ih (I (l - step) l) (l - step) s' T' hrec with hstop | hcont
        · obtain ⟨hQn, hs', hT'⟩ := hstop
          refine ⟨0, ?_, ?_, ?_, ?_⟩
          · rw [← hT, hT']
            simp only [List.range_succ_eq_map, List.range_zero, List.map_nil, List.map_cons]
            norm_num
          · rw [← hS, hs']
            simp only [List.range_succ_eq_map, List.range_zero, List.map_nil, List.map_cons,
              List.sum_cons, List.sum_nil, add_zero]
            norm_num
          · intro j hj
            exact absurd hj (Nat.not_lt_zero j)
          · have e1 : l - (((0 : ℕ) : ℚ) + 1) * step = l - step := by push_cast; ring
            have e2 : l - ((0 : ℕ) : ℚ) * step = l := by push_cast; ring
            rw [e1, e2]
            exact hQn
        · obtain ⟨hQn, k', hT', hS', hcond', hlast'⟩ := hcont
          have hmapT : (List.range (k' + 1)).map
              (fun (j : ℕ) => ((l - step) - ((j : ℚ) + 1) * step, (l - step) - (j : ℚ) * step)) =
              (List.range (k' + 1)).map
              ((fun (j : ℕ) => (l - ((j : ℚ) + 1) * step, l - (j : ℚ) * step)) ∘ Nat.succ) := by
            apply List.map_congr_left
            intro j _
            simp only [Function.comp_apply, Prod.mk.injEq]
            constructor <;> (push_cast; ring)
          have hmapS : (List.range (k' + 1)).map
              (fun (j : ℕ) => I ((l - step) - ((j : ℚ) + 1) * step) ((l - step) - (j : ℚ) * step)) =
              (List.range (k' + 1)).map
              ((fun (j : ℕ) => I (l - ((j : ℚ) + 1) * step) (l - (j : ℚ) * step)) ∘ Nat.succ) := by
            apply List.map_congr_left
            intro j _
            simp only [Function.comp_apply]
            rw [show l - (((Nat.succ j : ℕ) : ℚ) + 1) * step = (l - step) - ((j : ℚ) + 1) * step
                from by push_cast; ring,
              show l - ((Nat.succ j : ℕ) : ℚ) * step = (l - step) - (j : ℚ) * step
                from by push_cast; ring]
          refine ⟨k' + 1, ?_, ?_, ?_, ?_⟩
          · rw [← hT, hT']
            conv_rhs => rw [List.range_succ_eq_map, List.map_cons, List.map_map]
            rw [hmapT]
            congr 1
            simp only [Prod.mk.injEq]
            constructor <;> (push_cast; ring)
          · rw [← hS, hS']
            conv_rhs => rw [List.range_succ_eq_map, List.map_cons, List.map_map, List.sum_cons]
            rw [hmapS]
            congr 1
            rw [show l - (((0 : ℕ) : ℚ) + 1) * step = l - step from by push_cast; ring,
              show l - ((0 : ℕ) : ℚ) * step = l from by push_cast; ring]
          · intro j hj
            cases j with
            | zero =>
              have e1 : l - (((0 : ℕ) : ℚ) + 1) * step = l - step := by push_cast; ring
              have e2 : l - ((0 : ℕ) : ℚ) * step = l := by push_cast; ring
              rw [e1, e2]
              exact hQn
            | succ j' =>
              have e1 : l - (((j' + 1 : ℕ) : ℚ) + 1) * step =
                  (l - step) - ((j' : ℚ) + 1) * step := by push_cast; ring
              have e2 : l - ((j' + 1 : ℕ) : ℚ) * step = (l - step) - (j' : ℚ) * step := by
                push_cast; ring
              rw [e1, e2]
              exact hcond' j' (by omega)
          · have e1 : l - (((k' + 1 : ℕ) : ℚ) + 1) * step =
                (l - step) - ((k' : ℚ) + 1) * step := by push_cast; ring
            have e2 : l - ((k' + 1 : ℕ) : ℚ) * step = (l - step) - (k' : ℚ) * step := by
              push_cast; ring
            rw [e1, e2]
            exact hlast'

/-- Characterization of the rightward extension walk, mirroring
walkLeft_char: nothing is added when the sentinel is within tol, else
adjacent width-step intervals marching right from the starting point.
-/
theorem walkRight_char (I : ℚ → ℚ → ℚ) (tol step : ℚ) :
    ∀ fuel Q r S T, walkRight I tol step Q r fuel = some (S, T) →
      (|Q| ≤ tol ∧ S = 0 ∧ T = []) ∨
      (tol < |Q| ∧ ∃ k, T = (List.range (k + 1)).map
            (fun (j : ℕ) => (r + (j : ℚ) * step, r + ((j : ℚ) + 1) * step)) ∧
        S = ((List.range (k + 1)).map
            (fun (j : ℕ) => I (r + (j : ℚ) * step) (r + ((j : ℚ) + 1) * step))).sum ∧
        (∀ j : ℕ, j < k → tol < |I (r + (j : ℚ) * step) (r + ((j : ℚ) + 1) * step)|) ∧
        |I (r + (k : ℚ) * step) (r + ((k : ℚ) + 1) * step)| ≤ tol) := by
  intro fuel
  induction fuel with
  | zero =>
    intro Q r S T h
    simp only [walkRight] at h
    by_cases hc : |Q| ≤ tol
    · rw [if_pos hc] at h
      simp only [Option.some.injEq, Prod.mk.injEq] at h
      exact Or.inl ⟨hc, h.1.symm, h.2.symm⟩
    · rw [if_neg hc] at h
      exact Option.noConfusion h
  | succ f ih =>
    intro Q r S T h
    simp only [walkRight] at h
    by_cases hc : |Q| ≤ tol
    · rw [if_pos hc] at h
      simp only [Option.some.injEq, Prod.mk.injEq] at h
      exact Or.inl ⟨hc, h.1.symm, h.2.symm⟩
    · rw [if_neg hc] at h
      cases hrec : walkRight I tol step (I r (r + step)) (r + step) f with
      | none => rw [hrec] at h; exact Option.noConfusion h
      | some pr =>
        obtain ⟨s', T'⟩ := pr
        rw [hrec] at h
        simp only [Option.some.injEq, Prod.mk.injEq] at h
        obtain ⟨hS, hT⟩ := h
        refine Or.inr ⟨not_le.mp hc, ?_⟩
        rcases ih (I r (r + step)) (r + step) s' T' hrec with hstop | hcont
        · obtain ⟨hQn, hs', hT'⟩ := hstop
          refine ⟨0, ?_, ?_, ?_, ?_⟩
          · rw [← hT, hT']
            simp only [List.range_succ_eq_map, List.range_zero, List.map_nil, List.map_cons]
            norm_num
          · rw [← hS, hs']
            simp only [List.range_succ_eq_map, List.range_zero, List.map_nil, List.map_cons,
              List.sum_cons, List.sum_nil, add_zero]
            norm_num
          · intro j hj
            exact absurd hj (Nat.not_lt_zero j)
          · have e1 : r + ((0 : ℕ) : ℚ) * step = r := by push_cast; ring
            have e2 : r + (((0 : ℕ) : ℚ) + 1) * step = r + step := by push_cast; ring
            rw [e1, e2]
            exact hQn
        · obtain ⟨hQn, k', hT', hS', hcond', hlast'⟩ := hcont
          have hmapT : (List.range (k' + 1)).map
              (fun (j : ℕ) => ((r + step) + (j : ℚ) * step, (r + step) + ((j : ℚ) + 1) * step)) =
              (List.range (k' + 1)).map
              ((fun (j : ℕ) => (r + (j : ℚ) * step, r + ((j : ℚ) + 1) * step)) ∘ Nat.succ) := by
            apply List.map_congr_left
            intro j _
            simp only [Function.comp_apply, Prod.mk.injEq]
            constructor <;> (push_cast; ring)
          have hmapS : (List.range (k' + 1)).map
              (fun (j : ℕ) => I ((r + step) + (j : ℚ) * step) ((r + step) + ((j : ℚ) + 1) * step)) =
              (List.range (k' + 1)).map
              ((fun (j : ℕ) => I (r + (j : ℚ) * step) (r + ((j : ℚ) + 1) * step)) ∘ Nat.succ) := by
            apply List.map_congr_left
            intro j _
            simp only [Function.comp_apply]
            rw [show r + ((Nat.succ j : ℕ) : ℚ) * step = (r + step) + (j : ℚ) * step
                from by push_cast; ring,
              show r + (((Nat.succ j : ℕ) : ℚ) + 1) * step = (r + step) + ((j : ℚ) + 1) * step
                from by push_cast; ring]
          refine ⟨k' + 1, ?_, ?_, ?_, ?_⟩
          · rw [← hT, hT']
            conv_rhs => rw [List.range_succ_eq_map, List.map_cons, List.map_map]
            rw [hmapT]
            congr 1
            simp only [Prod.mk.injEq]
            constructor <;> (push_cast; ring)
          · rw [← hS, hS']
            conv_rhs => rw [List.range_succ_eq_map, List.map_cons, List.map_map, List.sum_cons]
            rw [hmapS]
            congr 1
            rw [show r + ((0 : ℕ) : ℚ) * step = r from by push_cast; ring,
              show r + (((0 : ℕ) : ℚ) + 1) * step = r + step from by push_cast; ring]
          · intro j hj
            cases j with
            | zero =>
              have e1 : r + ((0 : ℕ) : ℚ) * step = r := by push_cast; ring
              have e2 : r + (((0 : ℕ) : ℚ) + 1) * step = r + step := by push_cast; ring
              rw [e1, e2]
              exact hQn
            | succ j' =>
              have e1 : r + ((j' + 1 : ℕ) : ℚ) * step = (r + step) + (j' : ℚ) * step := by
                push_cast; ring
              have e2 : r + (((j' + 1 : ℕ) : ℚ) + 1) * step =
                  (r + step) + ((j' : ℚ) + 1) * step := by push_cast; ring
              rw [e1, e2]
              exact hcond' j' (by omega)
          · have e1 : r + ((k' + 1 : ℕ) : ℚ) * step = (r + step) + (k' : ℚ) * step := by
              push_cast; ring
            have e2 : r + (((k' + 1 : ℕ) : ℚ) + 1) * step =
                (r + step) + ((k' : ℚ) + 1) * step := by push_cast; ring
            rw [e1, e2]
            exact hlast'

/-- C5 counterexample: the claim asserts that the walk starts from a
unit reference interval whenever an endpoint is infinite, but for the
left-unbounded domain (-inf, 0] with step 2 the first interval
integrated is (-2, 0) — the width-step interval anchored at the finite
endpoint — not the reference interval (-1, 1).  (The run shown uses the
zero integrand, so the walk stops at its first increment.) -/
theorem C5_counterexample :
    gq_modification_unbounded_composite (fun _ _ => (0 : ℚ)) (1 / 100000000) 2
        .ninf (.fin 0) 5 = .value 0 [(-2, 0), (-4, -2)] ∧
    ((-2 : ℚ), (0 : ℚ)) ≠ ((-1 : ℚ), (1 : ℚ)) := by
  constructor
  · have h1 : ¬ (|(1 : ℚ)| ≤ 1 / 100000000) := by
      rw [abs_one]
      norm_num
    have h0 : |(0 : ℚ)| ≤ 1 / 100000000 := by norm_num
    simp only [gq_modification_unbounded_composite, walkLeft, if_neg h1, if_pos h0]
    simp only [GQResult.value.injEq, List.cons.injEq, Prod.mk.injEq, List.nil_eq,
      and_true, List.cons_ne_nil]
    norm_num
  · intro h
    rw [Prod.mk.injEq] at h
    exact absurd h.1 (by norm_num)

/-- C5 (amended): when an endpoint of the domain is infinite,
gq_modification_unbounded_composite walks the interval outward in fixed
steps of width step and adds each step's integral to a running sum; the
loop of each direction tests the magnitude of the previous increment —
primed with the sentinel value 1 — at the top of each iteration, so a
direction stops exactly when the newest increment is no longer above
tol (every earlier increment exceeds tol, the final one is within tol
and is still added), and for tol >= 1 no extension step is executed at
all in that direction; the two directions of a doubly-infinite domain
are walked independently and the accumulated sum is returned; the
doubly-infinite walk starts from the reference interval [-1, 1], while
the singly-infinite walks start from the width-step interval anchored
at the finite endpoint ([b-step, b], resp. [a, a+step]) rather than
from a unit reference interval. -/
theorem C5_unbounded_extension (I : ℚ → ℚ → ℚ) (tol step : ℚ) (fuel : ℕ) :
    (∀ bv sl Tl, walkLeft I tol step 1 (bv - step) fuel = some (sl, Tl) →
      gq_modification_unbounded_composite I tol step .ninf (.fin bv) fuel =
        .value (I (bv - step) bv + sl) ((bv - step, bv) :: Tl)) ∧
    (∀ av sr Tr, walkRight I tol step 1 (av + step) fuel = some (sr, Tr) →
      gq_modification_unbounded_composite I tol step (.fin av) .pinf fuel =
        .value (I av (av + step) + sr) ((av, av + step) :: Tr)) ∧
    (∀ sl Tl sr Tr, walkLeft I tol step 1 (-1) fuel = some (sl, Tl) →
      walkRight I tol step 1 1 fuel = some (sr, Tr) →
      gq_modification_unbounded_composite I tol step .ninf .pinf fuel =
        .value (I (-1) 1 + sl + sr) (((-1 : ℚ), (1 : ℚ)) :: (Tl ++ Tr))) ∧
    (∀ Q l S T, walkLeft I tol step Q l fuel = some (S, T) →
      (|Q| ≤ tol ∧ S = 0 ∧ T = []) ∨
      (tol < |Q| ∧ ∃ k, T = (List.range (k + 1)).map
            (fun (j : ℕ) => (l - ((j : ℚ) + 1) * step, l - (j : ℚ) * step)) ∧
        S = ((List.range (k + 1)).map
            (fun (j : ℕ) => I (l - ((j : ℚ) + 1) * step) (l - (j : ℚ) * step))).sum ∧
        (∀ j : ℕ, j < k → tol < |I (l - ((j : ℚ) + 1) * step) (l - (j : ℚ) * step)|) ∧
        |I (l - ((k : ℚ) + 1) * step) (l - (k : ℚ) * step)| ≤ tol)) ∧
    (∀ Q r S T, walkRight I tol step Q r fuel = some (S, T) →
      (|Q| ≤ tol ∧ S = 0 ∧ T = []) ∨
      (tol < |Q| ∧ ∃ k, T = (List.range (k + 1)).map
            (fun (j : ℕ) => (r + (j : ℚ) * step, r + ((j : ℚ) + 1) * step)) ∧
        S = ((List.range (k + 1)).map
            (fun (j : ℕ) => I (r + (j : ℚ) * step) (r + ((j : ℚ) + 1) * step))).sum ∧
        (∀ j : ℕ, j < k → tol < |I (r + (j : ℚ) * step) (r + ((j : ℚ) + 1) * step)|) ∧
        |I (r + (k : ℚ) * step) (r + ((k : ℚ) + 1) * step)| ≤ tol)) := by
  refine ⟨?_, ?_, ?_, walkLeft_char I tol step fuel, walkRight_char I tol step fuel⟩
  · intro bv sl Tl h
    simp only [gq_modification_unbounded_composite]
    rw [h]
  · intro av sr Tr h
    simp only [gq_modification_unbounded_composite]
    rw [h]
  · intro sl Tl sr Tr hl hr
    simp only [gq_modification_unbounded_composite]
    rw [hl, hr]

/-- Witness for C5: with the zero integrand and step 1, the
left-unbounded run over (-inf, 3] at tol = 1/2 integrates (2,3) and one
leftward step (1,2) (the sentinel 1 exceeds tol, the zero increment
stops the loop); at tol = 2 the sentinel is already within tol, so no
extension step runs and only (2,3) is integrated; the doubly-infinite
run at tol = 1/2 integrates (-1,1), one leftward step (-2,-1) and one
rightward step (1,2). -/
theorem C5_unbounded_extension_witness :
    gq_modification_unbounded_composite (fun _ _ => (0 : ℚ)) (1 / 2) 1 .ninf (.fin 3) 1 =
      .value 0 [(2, 3), (1, 2)] ∧
    gq_modification_unbounded_composite (fun _ _ => (0 : ℚ)) 2 1 .ninf (.fin 3) 1 =
      .value 0 [(2, 3)] ∧
    gq_modification_unbounded_composite (fun _ _ => (0 : ℚ)) (1 / 2) 1 .ninf .pinf 1 =
      .value 0 [(-1, 1), (-2, -1), (1, 2)] := by
  have h1 : ¬ (|(1 : ℚ)| ≤ 1 / 2) := by
    rw [abs_one]
    norm_num
  have h0 : |(0 : ℚ)| ≤ 1 / 2 := by norm_num
  have h2 : |(1 : ℚ)| ≤ 2 := by
    rw [abs_one]
    norm_num
  refine ⟨?_, ?_, ?_⟩
  · have hwl : walkLeft (fun _ _ => (0 : ℚ)) (1 / 2) 1 1 ((3 : ℚ) - 1) 1 =
        some (0 + 0, [((3 : ℚ) - 1 - 1, (3 : ℚ) - 1)]) := by
      simp only [walkLeft, if_neg h1, if_pos h0]
    have h := (C5_unbounded_extension (fun _ _ => (0 : ℚ)) (1 / 2) 1 1).1 3 (0 + 0)
      [((3 : ℚ) - 1 - 1, (3 : ℚ) - 1)] hwl
    rw [h]
    simp only [GQResult.value.injEq, List.cons.injEq, Prod.mk.injEq, List.nil_eq, and_true]
    norm_num
  · have hwl : walkLeft (fun _ _ => (0 : ℚ)) 2 1 1 ((3 : ℚ) - 1) 1 = some (0, []) := by
      simp only [walkLeft, if_pos h2]
    have h := (C5_unbounded_extension (fun _ _ => (0 : ℚ)) 2 1 1).1 3 0 [] hwl
    rw [h]
    simp only [GQResult.value.injEq, List.cons.injEq, Prod.mk.injEq, List.nil_eq, and_true]
    norm_num
  · have hwl : walkLeft (fun _ _ => (0 : ℚ)) (1 / 2) 1 1 (-1 : ℚ) 1 =
        some (0 + 0, [((-1 : ℚ) - 1, (-1 : ℚ))]) := by
      simp only [walkLeft, if_neg h1, if_pos h0]
    have hwr : walkRight (fun _ _ => (0 : ℚ)) (1 / 2) 1 1 (1 : ℚ) 1 =
        some (0 + 0, [((1 : ℚ), (1 : ℚ) + 1)]) := by
      simp only [walkRight, if_neg h1, if_pos h0]
    have h := (C5_unbounded_extension (fun _ _ => (0 : ℚ)) (1 / 2) 1 1).2.2.1 (0 + 0)
      [((-1 : ℚ) - 1, (-1 : ℚ))] (0 + 0) [((1 : ℚ), (1 : ℚ) + 1)] hwl hwr
    rw [h]
    simp only [GQResult.value.injEq, List.cons.injEq, Prod.mk.injEq, List.append_eq,
      List.nil_append, List.cons_append, List.nil_eq, and_true]
    norm_num

/-- C6: a measure-modification call whose input table is too short
fails immediately with the insufficient-margin error: linear
modification to target degree N returns the error exactly when the
table has fewer than N+2 pairs, and quadratic modification exactly when
it has fewer than N+3 pairs; with enough rows each returns modified
coefficients instead. -/
theorem C6_modification_margin (abf : ℕ → ℝ × ℝ) (ab : List (ℝ × ℝ)) (N : ℕ)
    (y0 z0 : ℝ) :
    ((recurrence_lin_mod_jacobi abf ab N y0 =
        .error "Error, requires more recurrence pairs") ↔ ab.length < N + 2) ∧
    ((recurrence_quad_mod_jacobi abf ab N z0 =
        .error "Error, requires more recurrence pairs") ↔ ab.length < N + 3) := by
  constructor
  · unfold recurrence_lin_mod_jacobi
    split_ifs with h
    · simp [h]
    · simp [h]
  · unfold recurrence_quad_mod_jacobi
    split_ifs with h
    · simp [h]
    · simp [h]

/-- C8 counterexample: the claim that an already-computed prefix is
never recomputed fails — when the stored table (one row, (0,5)) must be
extended to two rows, recurrence(1) replaces the whole table with
recurrence_driver(1)'s output, recomputing row 0; with a driver whose
row 0 is (0,7), the stored row (0,5) is overwritten. -/
theorem C8_counterexample :
    ((OPB_recurrence (fun N => List.replicate (N + 1) ((0 : ℝ), 7))
        [((0 : ℝ), 5)] 1).2.1).take 1 = [((0 : ℝ), 7)] ∧
    [((0 : ℝ), 7)] ≠ [((0 : ℝ), 5)] := by
  constructor
  · rfl
  · intro h
    simp only [List.cons.injEq, Prod.mk.injEq] at h
    exact absurd h.1.2 (by norm_num)

/-- C8 (amended): the memoized recurrence table grows monotonically,
and when the stored table already holds at least N+1 pairs,
recurrence(N) returns the stored first N+1 rows without modifying the
table and without invoking recurrence_driver; but when the table must
be extended, recurrence_driver(N) recomputes the entire table from
scratch — the previously computed prefix included — and its output
replaces the stored table. -/
theorem C8_recurrence_memo (drv : ℕ → List (ℝ × ℝ)) (stored : List (ℝ × ℝ)) (N : ℕ) :
    (N + 1 ≤ stored.length →
      OPB_recurrence drv stored N = (stored.take (N + 1), stored, false)) ∧
    (stored.length < N + 1 →
      OPB_recurrence drv stored N = (drv N, drv N, true)) ∧
    ((drv N).length = N + 1 →
      stored.length ≤ (OPB_recurrence drv stored N).2.1.length) := by
  refine ⟨?_, ?_, ?_⟩
  · intro h
    unfold OPB_recurrence
    rw [if_neg (by omega)]
  · intro h
    unfold OPB_recurrence
    rw [if_pos (by omega)]
  · intro h
    unfold OPB_recurrence
    split_ifs with hlt
    · simp only [h]
      omega
    · simp only []
      omega

/-- Witness for C8: with one stored row (0,5), recurrence(0) returns
the stored row and leaves the table untouched without calling the
driver, while recurrence(1) replaces the table by the driver's two
fresh rows (0,7),(0,7). -/
theorem C8_recurrence_memo_witness :
    OPB_recurrence (fun N => List.replicate (N + 1) ((0 : ℝ), 7)) [((0 : ℝ), 5)] 0 =
      ([((0 : ℝ), 5)], [((0 : ℝ), 5)], false) ∧
    OPB_recurrence (fun N => List.replicate (N + 1) ((0 : ℝ), 7)) [((0 : ℝ), 5)] 1 =
      ([((0 : ℝ), 7), (0, 7)], [((0 : ℝ), 7), (0, 7)], true) := by
  constructor
  · have h := (C8_recurrence_memo (fun N => List.replicate (N + 1) ((0 : ℝ), 7))
      [((0 : ℝ), 5)] 0).1 (by simp)
    rw [h]
    rfl
  · have h := (C8_recurrence_memo (fun N => List.replicate (N + 1) ((0 : ℝ), 7))
      [((0 : ℝ), 5)] 1).2.1 (by simp)
    rw [h]
    rfl

/-- C9 counterexample: the claim that the input recurrence coefficients
are never left unchanged fails when the caller's b already has b[0] = 1
— the in-place write b[0] = 1 then leaves the array equal to its input.
-/
theorem C9_counterexample :
    markov_stiltjies_caller_b [(1 : ℝ)] = [(1 : ℝ)] := rfl

/-- C9 (amended): markov_stiltjies writes the caller-supplied array b
in place — b[0] is set to 1 (line 68) before the table is passed to
quad_mod, and the loop's later writes target the fresh arrays quad_mod
returns — so after the call the caller's array holds 1 at index 0, and
the input coefficients are changed by the call whenever b[0] was not
already 1. -/
theorem C9_markov_frame (b : List ℝ) (hb : b ≠ []) :
    (markov_stiltjies_caller_b b).getD 0 0 = 1 ∧
    (b.getD 0 0 ≠ 1 → markov_stiltjies_caller_b b ≠ b) := by
  obtain ⟨x, xs, rfl⟩ : ∃ x xs, b = x :: xs := by
    cases b with
    | nil => exact absurd rfl hb
    | cons x xs => exact ⟨x, xs, rfl⟩
  constructor
  · rfl
  · intro hx h
    simp only [markov_stiltjies_caller_b, List.set, List.cons.injEq] at h
    simp only [List.getD_cons_zero] at hx
    exact hx h.1.symm

/-- Witness for C9: for the caller array [2, 3] the call leaves 1 in
slot 0 and the array differs from its input. -/
theorem C9_markov_frame_witness :
    (markov_stiltjies_caller_b [(2 : ℝ), 3]).getD 0 0 = 1 ∧
    markov_stiltjies_caller_b [(2 : ℝ), 3] ≠ [(2 : ℝ), 3] := by
  have h := C9_markov_frame [(2 : ℝ), 3] (by simp)
  refine ⟨h.1, h.2 ?_⟩
  simp only [List.getD_cons_zero]
  norm_num

/-- A loop step writes only row n+1. -/
theorem ttrStep_ne (Q : (ℝ → ℝ) → ℕ → ℝ) (weight : ℝ → ℝ) (Nquad : ℕ)
    (abf : ℕ → ℝ × ℝ) (n m : ℕ) (hm : m ≠ n + 1) :
    ttrStep Q weight Nquad abf n m = abf m := by
  simp only [ttrStep, updRow, if_neg hm]

/-- Rows at or below the step counter stay positive in the second
component when every oracle estimate is positive. -/
theorem ttrTable_beta_pos (Q : (ℝ → ℝ) → ℕ → ℝ) (weight : ℝ → ℝ) (Nquad : ℕ)
    (hQ : ∀ f k, 0 < Q f k) :
    ∀ k n, n ≤ k → 0 < (ttrTable Q weight Nquad k n).2 := by
  intro k
  induction k with
  | zero =>
    intro n hn
    obtain rfl : n = 0 := by omega
    simp only [ttrTable, updRow, if_pos rfl]
    exact Real.sqrt_pos.mpr (hQ _ _)
  | succ k ih =>
    intro n hn
    by_cases hcase : n = k + 1
    · subst hcase
      show 0 < (ttrStep Q weight Nquad (ttrTable Q weight Nquad k) k (k + 1)).2
      simp only [ttrStep, updRow, if_pos rfl]
      exact mul_pos (ih k le_rfl) (Real.sqrt_pos.mpr (hQ _ _))
    · have hstep : ttrTable Q weight Nquad (k + 1) n = ttrTable Q weight Nquad k n :=
        ttrStep_ne Q weight Nquad (ttrTable Q weight Nquad k) k n hcase
      rw [hstep]
      exact ih n (by omega)

/-- The alpha_0 slot, set to 0 at initialization, is never overwritten.
-/
theorem ttrTable_alpha0 (Q : (ℝ → ℝ) → ℕ → ℝ) (weight : ℝ → ℝ) (Nquad : ℕ) :
    ∀ k, (ttrTable Q weight Nquad k 0).1 = 0 := by
  intro k
  induction k with
  | zero => simp only [ttrTable, updRow, if_pos rfl, if_true]
  | succ k ih =>
    have hstep : ttrTable Q weight Nquad (k + 1) 0 = ttrTable Q weight Nquad k 0 :=
      ttrStep_ne Q weight Nquad (ttrTable Q weight Nquad k) k 0 (by omega)
    rw [hstep]
    exact ih

/-- Positivity of the Composite.recurrence beta recursion under
positive per-step integral sums. -/
theorem composite_recurrence_beta_pos (sA sB : ℕ → ℝ) (hsB : ∀ i, 0 < sB i) :
    ∀ i, 0 < (composite_recurrence sA sB i).2 := by
  intro i
  induction i with
  | zero => exact Real.sqrt_pos.mpr (hsB 0)
  | succ i ih =>
    simp only [composite_recurrence]
    exact mul_pos ih (Real.sqrt_pos.mpr (hsB _))

/-- Positivity of the compute_ttr_bounded_composite /
compute_ttr_unbounded_composite beta recursion under positive per-step
estimates. -/
theorem compute_ttr_composite_beta_pos (qA qB : ℕ → ℝ) (hqB : ∀ n, 0 < qB n) :
    ∀ n, 0 < (compute_ttr_composite qA qB n).2 := by
  intro n
  induction n with
  | zero => exact Real.sqrt_pos.mpr (hqB 0)
  | succ n ih =>
    simp only [compute_ttr_composite]
    exact mul_pos ih (Real.sqrt_pos.mpr (hqB _))

/-- Positivity of the Composite.stieltjes betas when the step-0
integral sum and each moment difference s_1 - s_2 (with s_2 = 0 at
step 1) are positive. -/
theorem stieltjes_recurrence_beta_pos (sAlpha s1 s2 : ℕ → ℝ) (s0 : ℝ)
    (hs0 : 0 < s0)
    (hs : ∀ i, 1 ≤ i → 0 < s1 i - (if i = 1 then 0 else s2 i)) :
    ∀ i, 0 < (stieltjes_recurrence sAlpha s1 s2 s0 i).2 := by
  intro i
  cases i with
  | zero => exact Real.sqrt_pos.mpr hs0
  | succ i =>
    simp only [stieltjes_recurrence]
    exact Real.sqrt_pos.mpr (hs (i + 1) (by omega))

/-- Positivity of the Composite.aPC betas when the squared first
normalization constant and each moment difference s_1 - s_2 (with
s_2 = 0 at step 1) are positive. -/
theorem aPC_recurrence_beta_pos (sAlpha s1 s2 : ℕ → ℝ) (nc0sq : ℝ)
    (hnc : 0 < nc0sq)
    (hs : ∀ i, 1 ≤ i → 0 < s1 i - (if i = 1 then 0 else s2 i)) :
    ∀ i, 0 < (aPC_recurrence sAlpha s1 s2 nc0sq i).2 := by
  intro i
  cases i with
  | zero => exact Real.sqrt_pos.mpr hnc
  | succ i =>
    simp only [aPC_recurrence]
    exact Real.sqrt_pos.mpr (hs (i + 1) (by omega))

/-- C2 counterexample: the beta-positivity invariant fails as a
property of the algorithms alone — running compute_ttr_bounded on the
zero weight (whose every quadrature estimate is 0) produces
beta_0 = sqrt 0 = 0, which is not positive. -/
theorem C2_counterexample :
    ¬ (0 < (compute_ttr_bounded zeroOracle (fun _ => 0) 10 1 0).2) := by
  have h : (compute_ttr_bounded zeroOracle (fun _ => 0) 10 1 0).2 = 0 := by
    simp [compute_ttr_bounded, ttrTable, updRow, zeroOracle]
  rw [h]
  exact lt_irrefl 0

/-- C2 (amended): every recurrence table produced by the algorithm
variants has positive beta_n for every computed index and alpha_0
stored as 0, provided the quantity under every square root is
positive: compute_ttr_bounded, compute_ttr_bounded_composite /
compute_ttr_unbounded_composite and Composite.recurrence compute each
beta as a previous beta (or the row-0 value 1) times the square root
of a quadrature estimate, so positivity of every estimate suffices;
Composite.stieltjes and Composite.aPC instead compute each beta_i for
i >= 1 as sqrt(s_1 - s_2) of two moment integrals (with s_2 = 0 at
i = 1), so there the proviso is positivity of each difference
s_1 - s_2 together with the step-0 quantity under the first sqrt. -/
theorem C2_beta_positive (Q : (ℝ → ℝ) → ℕ → ℝ) (weight : ℝ → ℝ) (Nquad N : ℕ)
    (qA qB sA sB stA st1 st2 pA p1 p2 : ℕ → ℝ) (st0 nc0sq : ℝ)
    (hQ : ∀ f k, 0 < Q f k) (hqB : ∀ n, 0 < qB n) (hsB : ∀ i, 0 < sB i)
    (hst0 : 0 < st0)
    (hst : ∀ i, 1 ≤ i → 0 < st1 i - (if i = 1 then 0 else st2 i))
    (hnc : 0 < nc0sq)
    (hp : ∀ i, 1 ≤ i → 0 < p1 i - (if i = 1 then 0 else p2 i)) :
    ((compute_ttr_bounded Q weight Nquad N 0).1 = 0 ∧
      (∀ n, n < N → 0 < (compute_ttr_bounded Q weight Nquad N n).2)) ∧
    ((compute_ttr_composite qA qB 0).1 = 0 ∧
      (∀ n, 0 < (compute_ttr_composite qA qB n).2)) ∧
    ((composite_recurrence sA sB 0).1 = 0 ∧
      (∀ i, 0 < (composite_recurrence sA sB i).2)) ∧
    ((stieltjes_recurrence stA st1 st2 st0 0).1 = 0 ∧
      (∀ i, 0 < (stieltjes_recurrence stA st1 st2 st0 i).2)) ∧
    ((aPC_recurrence pA p1 p2 nc0sq 0).1 = 0 ∧
      (∀ i, 0 < (aPC_recurrence pA p1 p2 nc0sq i).2)) := by
  refine ⟨⟨ttrTable_alpha0 Q weight Nquad (N - 1), fun n hn => ?_⟩,
    ⟨rfl, compute_ttr_composite_beta_pos qA qB hqB⟩,
    ⟨rfl, composite_recurrence_beta_pos sA sB hsB⟩,
    ⟨rfl, stieltjes_recurrence_beta_pos stA st1 st2 st0 hst0 hst⟩,
    ⟨rfl, aPC_recurrence_beta_pos pA p1 p2 nc0sq hnc hp⟩⟩
  exact ttrTable_beta_pos Q weight Nquad hQ (N - 1) n (by omega)

/-- Witness for C2: with every quadrature estimate equal to 1 and the
constant weight, the first two rows of compute_ttr_bounded have
positive beta and alpha_0 = 0; the compute_ttr_*_composite,
Composite.recurrence, Composite.stieltjes and Composite.aPC betas with
unit estimates (and zero s_2 moments) are positive. -/
theorem C2_beta_positive_witness :
    (compute_ttr_bounded oneOracle (fun _ => (1 : ℝ)) 10 2 0).1 = 0 ∧
    (0 < (compute_ttr_bounded oneOracle (fun _ => (1 : ℝ)) 10 2 1).2) ∧
    (0 < (compute_ttr_composite (fun _ => 0) (fun _ => 1) 2).2) ∧
    (0 < (composite_recurrence (fun _ => 0) (fun _ => 1) 3).2) ∧
    (0 < (stieltjes_recurrence (fun _ => 0) (fun _ => 1) (fun _ => 0) 1 2).2) ∧
    (0 < (aPC_recurrence (fun _ => 0) (fun _ => 1) (fun _ => 0) 1 2).2) := by
  have h := C2_beta_positive oneOracle (fun _ => (1 : ℝ)) 10 2
    (fun _ => 0) (fun _ => 1) (fun _ => 0) (fun _ => 1)
    (fun _ => 0) (fun _ => 1) (fun _ => 0)
    (fun _ => 0) (fun _ => 1) (fun _ => 0) 1 1
    (fun _ _ => one_pos) (fun _ => one_pos) (fun _ => one_pos)
    one_pos (by intro i h; split_ifs <;> norm_num)
    one_pos (by intro i h; split_ifs <;> norm_num)
  exact ⟨h.1.1, h.1.2 1 (by norm_num), h.2.1.2 2, h.2.2.1.2 3,
    h.2.2.2.1.2 2, h.2.2.2.2.2 2⟩

/-- Rows of an orthogonal matrix have unit norm: from V * Vᵀ = 1 the
squared entries of any row sum to 1. -/
theorem sum_sq_row_eq_one {N : ℕ} (V : Matrix (Fin N) (Fin N) ℝ)
    (h : V * Matrix.transpose V = 1) (z : Fin N) :
    ∑ i, (V z i) ^ 2 = 1 := by
  have hzz : (V * Matrix.transpose V) z z = (1 : Matrix (Fin N) (Fin N) ℝ) z z := by
    rw [h]
  rw [Matrix.mul_apply, Matrix.one_apply_eq] at hzz
  calc ∑ i, (V z i) ^ 2 = ∑ i, V z i * Matrix.transpose V i z := by
        refine Finset.sum_congr rfl fun i _ => ?_
        rw [Matrix.transpose_apply, sq]
    _ = 1 := hzz

/-- The columns of V in an orthogonal eigendecomposition
J = V * diag(lamb) * Vᵀ are eigenvectors of J: this is what
numpy.linalg.eigh returns for a symmetric matrix. -/
theorem eigencols {N : ℕ} (J V : Matrix (Fin N) (Fin N) ℝ) (lamb : Fin N → ℝ)
    (hdec : J = V * Matrix.diagonal lamb * Matrix.transpose V)
    (horth : V * Matrix.transpose V = 1) (i : Fin N) :
    J.mulVec (fun j => V j i) = lamb i • (fun j => V j i) := by
  have hVtV : Matrix.transpose V * V = 1 := Matrix.mul_eq_one_comm.mp horth
  have hJV : J * V = V * Matrix.diagonal lamb := by
    rw [hdec, Matrix.mul_assoc (V * Matrix.diagonal lamb), hVtV, Matrix.mul_one]
  funext j
  have hentry : (J * V) j i = (V * Matrix.diagonal lamb) j i := by rw [hJV]
  rw [Matrix.mul_apply, Matrix.mul_diagonal] at hentry
  show ∑ k, J j k * V k i = _
  rw [hentry]
  simp only [Pi.smul_apply, smul_eq_mul]
  ring

/-- Action of the Jacobi matrix on a vector, row by row: the diagonal
term ab[j+1,0] * v[j], the superdiagonal term ab[j+1,1] * v[j+1] when a
row j+1 exists, and the subdiagonal term ab[j,1] * v[j-1] when j > 0.
-/
theorem jacobi_mulVec (abf : ℕ → ℝ × ℝ) {N : ℕ} (v : Fin N → ℝ) (j : Fin N) :
    (jacobi_matrix abf N).mulVec v j =
      (abf ((j : ℕ) + 1)).1 * v j
      + ((if h : (j : ℕ) + 1 < N then (abf ((j : ℕ) + 1)).2 * v ⟨(j : ℕ) + 1, h⟩ else 0)
      + (if h : 0 < (j : ℕ) then (abf (j : ℕ)).2 *
          v ⟨(j : ℕ) - 1, Nat.lt_of_le_of_lt (Nat.sub_le _ _) j.isLt⟩ else 0)) := by
  have hsplit : ∀ k : Fin N,
      (if (j : ℕ) = (k : ℕ) then (abf ((j : ℕ) + 1)).1
       else if (k : ℕ) = (j : ℕ) + 1 then (abf ((j : ℕ) + 1)).2
       else if (j : ℕ) = (k : ℕ) + 1 then (abf ((k : ℕ) + 1)).2 else 0) * v k =
      (if (j : ℕ) = (k : ℕ) then (abf ((j : ℕ) + 1)).1 * v k else 0)
      + ((if (k : ℕ) = (j : ℕ) + 1 then (abf ((j : ℕ) + 1)).2 * v k else 0)
      + (if (j : ℕ) = (k : ℕ) + 1 then (abf ((k : ℕ) + 1)).2 * v k else 0)) := by
    intro k
    by_cases h1 : (j : ℕ) = (k : ℕ)
    · rw [if_pos h1, if_pos h1, if_neg (by omega), if_neg (by omega)]
      ring
    · rw [if_neg h1, if_neg h1]
      by_cases h2 : (k : ℕ) = (j : ℕ) + 1
      · rw [if_pos h2, if_pos h2, if_neg (by omega)]
        ring
      · rw [if_neg h2, if_neg h2]
        by_cases h3 : (j : ℕ) = (k : ℕ) + 1
        · rw [if_pos h3, if_pos h3]
          ring
        · rw [if_neg h3, if_neg h3]
          ring
  have hmv : (jacobi_matrix abf N).mulVec v j =
      ∑ k : Fin N, (if (j : ℕ) = (k : ℕ) then (abf ((j : ℕ) + 1)).1
       else if (k : ℕ) = (j : ℕ) + 1 then (abf ((j : ℕ) + 1)).2
       else if (j : ℕ) = (k : ℕ) + 1 then (abf ((k : ℕ) + 1)).2 else 0) * v k := by
    simp only [Matrix.mulVec, Matrix.dotProduct, jacobi_matrix, Matrix.of_apply]
  rw [hmv, Finset.sum_congr rfl (fun k _ => hsplit k), Finset.sum_add_distrib]
  congr 1
  · calc ∑ k : Fin N, (if (j : ℕ) = (k : ℕ) then (abf ((j : ℕ) + 1)).1 * v k else 0)
        = ∑ k : Fin N, (if j = k then (abf ((j : ℕ) + 1)).1 * v k else 0) :=
          Finset.sum_congr rfl fun k _ => if_congr (Fin.val_eq_val j k) rfl rfl
      _ = (abf ((j : ℕ) + 1)).1 * v j := by rw [Finset.sum_ite_eq]; simp
  · rw [Finset.sum_add_distrib]
    congr 1
    · by_cases h : (j : ℕ) + 1 < N
      · rw [dif_pos h]
        calc ∑ k : Fin N, (if (k : ℕ) = (j : ℕ) + 1 then (abf ((j : ℕ) + 1)).2 * v k else 0)
            = ∑ k : Fin N, (if k = (⟨(j : ℕ) + 1, h⟩ : Fin N) then
                (abf ((j : ℕ) + 1)).2 * v k else 0) :=
              Finset.sum_congr rfl fun k _ => if_congr (by rw [Fin.ext_iff]) rfl rfl
          _ = (abf ((j : ℕ) + 1)).2 * v ⟨(j : ℕ) + 1, h⟩ := by
              rw [Finset.sum_ite_eq']; simp
      · rw [dif_neg h]
        apply Finset.sum_eq_zero
        intro k _
        rw [if_neg]
        have := k.isLt
        omega
    · by_cases h : 0 < (j : ℕ)
      · rw [dif_pos h]
        calc ∑ k : Fin N, (if (j : ℕ) = (k : ℕ) + 1 then (abf ((k : ℕ) + 1)).2 * v k else 0)
            = ∑ k : Fin N, (if k = (⟨(j : ℕ) - 1,
                  Nat.lt_of_le_of_lt (Nat.sub_le _ _) j.isLt⟩ : Fin N) then
                (abf ((k : ℕ) + 1)).2 * v k else 0) :=
              Finset.sum_congr rfl fun k _ => if_congr
                (by rw [Fin.ext_iff]
                    show ((j : ℕ) = (k : ℕ) + 1) ↔ ((k : ℕ) = (j : ℕ) - 1)
                    omega) rfl rfl
          _ = (abf (((j : ℕ) - 1) + 1)).2 * v ⟨(j : ℕ) - 1,
                Nat.lt_of_le_of_lt (Nat.sub_le _ _) j.isLt⟩ := by
              rw [Finset.sum_ite_eq']; simp
          _ = (abf (j : ℕ)).2 * v ⟨(j : ℕ) - 1,
                Nat.lt_of_le_of_lt (Nat.sub_le _ _) j.isLt⟩ := by
              have hidx : (j : ℕ) - 1 + 1 = (j : ℕ) := by omega
              rw [hidx]
      · rw [dif_neg h]
        apply Finset.sum_eq_zero
        intro k _
        rw [if_neg]
        omega

/-- C1: for a table with more than N rows (and N >= 1 so that the rule
is nonempty), gauss_quadrature_driver(ab, N) returns the eigenvalues of
the N x N Jacobi matrix as nodes — each column of the orthogonal
eigenvector matrix V is an eigenvector with the corresponding node as
eigenvalue — and the weights ab[0,1]^2 * v[0,:]^2; consequently the N
weights sum to beta_0^2 = ab[0,1]^2. -/
theorem C1_gauss_quadrature (N : ℕ) (hN : 0 < N) (ab : List (ℝ × ℝ))
    (hlen : N + 1 ≤ ab.length) (V : Matrix (Fin N) (Fin N) ℝ) (lamb : Fin N → ℝ)
    (hdec : jacobi_matrix_driver ab N = V * Matrix.diagonal lamb * Matrix.transpose V)
    (horth : V * Matrix.transpose V = 1) :
    (∀ i, (jacobi_matrix_driver ab N).mulVec (fun j => V j i) =
      lamb i • (fun j => V j i)) ∧
    ∑ i, gauss_quadrature_weights ab V i = (abGet ab 0).2 ^ 2 := by
  constructor
  · exact fun i => eigencols _ V lamb hdec horth i
  · have hz := sum_sq_row_eq_one V horth ⟨0, hN⟩
    calc ∑ i, gauss_quadrature_weights ab V i
        = ∑ i, (abGet ab 0).2 ^ 2 * (V ⟨0, hN⟩ i) ^ 2 :=
          Finset.sum_congr rfl fun i _ => rfl
      _ = (abGet ab 0).2 ^ 2 * ∑ i, (V ⟨0, hN⟩ i) ^ 2 := by rw [Finset.mul_sum]
      _ = (abGet ab 0).2 ^ 2 := by rw [hz, mul_one]

/-- Witness for C1: the two-row table with beta_0 = 3 and alpha_1 = 5
has the 1 x 1 Jacobi matrix [[5]], whose eigendecomposition is V = 1,
lambda = 5; the single weight sums to beta_0^2 = 9, and the one column
of V is an eigenvector with eigenvalue 5. -/
theorem C1_gauss_quadrature_witness :
    (∑ i, gauss_quadrature_weights abPair (1 : Matrix (Fin 1) (Fin 1) ℝ) i = (3 : ℝ) ^ 2) ∧
    (∀ i, (jacobi_matrix_driver abPair 1).mulVec
        (fun j => (1 : Matrix (Fin 1) (Fin 1) ℝ) j i) =
      (5 : ℝ) • (fun j => (1 : Matrix (Fin 1) (Fin 1) ℝ) j i)) := by
  have hdec : jacobi_matrix_driver abPair 1 =
      (1 : Matrix (Fin 1) (Fin 1) ℝ) * Matrix.diagonal (fun _ => (5 : ℝ)) *
        Matrix.transpose 1 := by
    rw [Matrix.transpose_one, Matrix.mul_one, Matrix.one_mul]
    ext i k
    fin_cases i
    fin_cases k
    simp [jacobi_matrix_driver, jacobi_matrix, abGet, abPair]
  have horth : (1 : Matrix (Fin 1) (Fin 1) ℝ) * Matrix.transpose 1 =
      (1 : Matrix (Fin 1) (Fin 1) ℝ) := by
    rw [Matrix.transpose_one, Matrix.mul_one]
  have h := C1_gauss_quadrature 1 one_pos abPair (by norm_num [abPair]) 1
    (fun _ => (5 : ℝ)) hdec horth
  refine ⟨?_, fun i => h.1 i⟩
  rw [h.2]
  rfl

/-- The three-term recurrence satisfied by eval_driver, in cleared
form: ab[m+2,1] * p_(m+2) = (x - ab[m+2,0]) * p_(m+1) - ab[m+1,1] * p_m.
-/
theorem eval_driver_rec (abf : ℕ → ℝ × ℝ) (x : ℝ) (m : ℕ)
    (hβ : (abf (m + 2)).2 ≠ 0) :
    (abf (m + 2)).2 * eval_driver abf x (m + 2) =
      (x - (abf (m + 2)).1) * eval_driver abf x (m + 1)
        - (abf (m + 1)).2 * eval_driver abf x m := by
  simp only [eval_driver]
  field_simp

/-- The first recurrence step in cleared form:
ab[1,1] * p_1 = (x - ab[1,0]) * p_0. -/
theorem eval_driver_rec1 (abf : ℕ → ℝ × ℝ) (x : ℝ) (hβ : (abf 1).2 ≠ 0) :
    (abf 1).2 * eval_driver abf x 1 = (x - (abf 1).1) * eval_driver abf x 0 := by
  simp only [eval_driver]
  rw [← mul_assoc, mul_one_div, div_self hβ, one_mul]

/-- The continued-fraction ratio evaluation agrees with the ratio of
polynomial values, r_(n+1)(x) = p_(n+1)(x) / p_n(x), as long as the
beta coefficients involved and the intermediate polynomial values are
nonzero. -/
theorem r_eval_eq_ratio (abf : ℕ → ℝ × ℝ) (x : ℝ) :
    ∀ n, (abf 0).2 ≠ 0 → (∀ k, 1 ≤ k → k ≤ n + 1 → (abf k).2 ≠ 0) →
      (∀ j, j ≤ n → eval_driver abf x j ≠ 0) →
      r_eval abf x (n + 1) = eval_driver abf x (n + 1) / eval_driver abf x n := by
  intro n
  induction n with
  | zero =>
    intro hb0 hb hp
    have hb1 : (abf 1).2 ≠ 0 := hb 1 le_rfl le_rfl
    simp only [r_eval, eval_driver]
    field_simp
    ring
  | succ m ih =>
    intro hb0 hb hp
    have hbm2 : (abf (m + 2)).2 ≠ 0 := hb (m + 2) (by omega) (by omega)
    have hbm1 : (abf (m + 1)).2 ≠ 0 := hb (m + 1) (by omega) (by omega)
    have hpm : eval_driver abf x m ≠ 0 := hp m (by omega)
    have hpm1 : eval_driver abf x (m + 1) ≠ 0 := hp (m + 1) (by omega)
    have hih : r_eval abf x (m + 1) = eval_driver abf x (m + 1) / eval_driver abf x m :=
      ih hb0 (fun k h1 h2 => hb k h1 (by omega)) (fun j hj => hp j (by omega))
    have hrec := eval_driver_rec abf x m hbm2
    show r_eval abf x (m + 2) = _
    simp only [r_eval]
    rw [hih]
    simp only [eval_driver]
    field_simp

/-- The anchor is pinned: the vector of orthonormal polynomial values
(p_0(anchor), ..., p_(N-1)(anchor)) is an eigenvector of the perturbed
Jacobi matrix with eigenvalue anchor, because the perturbation
c * cd[N,1] of the last diagonal entry with c = r_N(anchor) completes
the three-term recurrence at the last row. -/
theorem radau_anchor_eigvec (abf : ℕ → ℝ × ℝ) (anchor : ℝ) (N : ℕ)
    (hb0 : (abf 0).2 ≠ 0) (hb : ∀ k, 1 ≤ k → k ≤ N → (abf k).2 ≠ 0)
    (hp : ∀ j, j < N → eval_driver abf anchor j ≠ 0) :
    (gauss_radau_jacobi abf N anchor).mulVec (radau_eigvec abf anchor N) =
      anchor • radau_eigvec abf anchor N := by
  have hcd2 : ∀ m, (radau_mod_ab abf N anchor m).2 = (abf m).2 := by
    intro m
    unfold radau_mod_ab
    split_ifs with h
    · rw [h]
    · rfl
  have hcd1 : ∀ m, m ≠ N → (radau_mod_ab abf N anchor m).1 = (abf m).1 := by
    intro m h
    unfold radau_mod_ab
    rw [if_neg h]
  have hcd1N : (radau_mod_ab abf N anchor N).1 =
      (abf N).1 + r_eval abf anchor N * (abf N).2 := by
    unfold radau_mod_ab
    rw [if_pos rfl]
  funext j
  rw [Pi.smul_apply, smul_eq_mul]
  show (jacobi_matrix (radau_mod_ab abf N anchor) N).mulVec (radau_eigvec abf anchor N) j
      = anchor * radau_eigvec abf anchor N j
  rw [jacobi_mulVec]
  by_cases hlt : (j : ℕ) + 1 < N
  · rw [dif_pos hlt, hcd2, hcd1 ((j : ℕ) + 1) (by omega)]
    by_cases hj0 : 0 < (j : ℕ)
    · rw [dif_pos hj0, hcd2]
      obtain ⟨m, hm⟩ : ∃ m, (j : ℕ) = m + 1 := ⟨(j : ℕ) - 1, by omega⟩
      show (abf ((j : ℕ) + 1)).1 * eval_driver abf anchor (j : ℕ)
          + ((abf ((j : ℕ) + 1)).2 * eval_driver abf anchor ((j : ℕ) + 1)
          + (abf (j : ℕ)).2 * eval_driver abf anchor ((j : ℕ) - 1))
          = anchor * eval_driver abf anchor (j : ℕ)
      rw [hm]
      rw [show m + 1 - 1 = m from by omega]
      have hrec := eval_driver_rec abf anchor m (hb (m + 2) (by omega) (by omega))
      show (abf (m + 2)).1 * eval_driver abf anchor (m + 1)
          + ((abf (m + 2)).2 * eval_driver abf anchor (m + 2)
          + (abf (m + 1)).2 * eval_driver abf anchor m)
          = anchor * eval_driver abf anchor (m + 1)
      rw [hrec]
      ring
    · rw [dif_neg hj0]
      have hj : (j : ℕ) = 0 := by omega
      show (abf ((j : ℕ) + 1)).1 * eval_driver abf anchor (j : ℕ)
          + ((abf ((j : ℕ) + 1)).2 * eval_driver abf anchor ((j : ℕ) + 1) + 0)
          = anchor * eval_driver abf anchor (j : ℕ)
      rw [hj]
      have hrec1 := eval_driver_rec1 abf anchor (hb 1 le_rfl (by omega))
      show (abf 1).1 * eval_driver abf anchor 0
          + ((abf 1).2 * eval_driver abf anchor 1 + 0)
          = anchor * eval_driver abf anchor 0
      rw [hrec1]
      ring
  · have hjN : (j : ℕ) + 1 = N := by
      have := j.isLt
      omega
    rw [dif_neg hlt]
    by_cases hj0 : 0 < (j : ℕ)
    · rw [dif_pos hj0, hcd2]
      obtain ⟨m, hm⟩ : ∃ m, (j : ℕ) = m + 1 := ⟨(j : ℕ) - 1, by omega⟩
      have hN2 : N = m + 2 := by omega
      show (radau_mod_ab abf N anchor ((j : ℕ) + 1)).1 * eval_driver abf anchor (j : ℕ)
          + (0 + (abf (j : ℕ)).2 * eval_driver abf anchor ((j : ℕ) - 1))
          = anchor * eval_driver abf anchor (j : ℕ)
      rw [hm]
      rw [show m + 1 - 1 = m from by omega]
      rw [show m + 1 + 1 = N from by omega, hcd1N, hN2]
      have hratio := r_eval_eq_ratio abf anchor (m + 1) hb0
        (fun k h1 h2 => hb k h1 (by omega)) (fun jj hjj => hp jj (by omega))
      have hratio' : r_eval abf anchor (m + 2) =
          eval_driver abf anchor (m + 2) / eval_driver abf anchor (m + 1) := hratio
      rw [hratio']
      have hrec := eval_driver_rec abf anchor m (hb (m + 2) (by omega) (by omega))
      have hpm1 : eval_driver abf anchor (m + 1) ≠ 0 := hp (m + 1) (by omega)
      have hdiv : eval_driver abf anchor (m + 2) / eval_driver abf anchor (m + 1) *
          (abf (m + 2)).2 * eval_driver abf anchor (m + 1) =
          (abf (m + 2)).2 * eval_driver abf anchor (m + 2) := by
        field_simp
        ring
      rw [add_mul, mul_assoc, ← mul_assoc (eval_driver abf anchor (m + 2) /
        eval_driver abf anchor (m + 1)), hdiv, hrec]
      ring
    · rw [dif_neg hj0]
      have hj : (j : ℕ) = 0 := by omega
      have hN1 : N = 1 := by omega
      show (radau_mod_ab abf N anchor ((j : ℕ) + 1)).1 * eval_driver abf anchor (j : ℕ)
          + (0 + 0) = anchor * eval_driver abf anchor (j : ℕ)
      rw [hj]
      rw [show (0 : ℕ) + 1 = N from by omega, hcd1N, hN1]
      have hratio := r_eval_eq_ratio abf anchor 0 hb0
        (fun k h1 h2 => hb k h1 (by omega)) (fun jj hjj => hp jj (by omega))
      have hratio' : r_eval abf anchor 1 =
          eval_driver abf anchor 1 / eval_driver abf anchor 0 := hratio
      rw [hratio']
      have hrec1 := eval_driver_rec1 abf anchor (hb 1 le_rfl (by omega))
      have hp0 : eval_driver abf anchor 0 ≠ 0 := hp 0 (by omega)
      have hdiv : eval_driver abf anchor 1 / eval_driver abf anchor 0 * (abf 1).2 *
          eval_driver abf anchor 0 = (abf 1).2 * eval_driver abf anchor 1 := by
        field_simp
        ring
      rw [add_mul, mul_assoc, ← mul_assoc (eval_driver abf anchor 1 /
        eval_driver abf anchor 0), hdiv, hrec1]
      ring

/-- C7 counterexample: the claim says the Radau weights are beta_0^2
times the squared first eigenvector components, but the source returns
v[0,:]^2 with no ab[0,1]^2 factor.  For the family with beta_0 = 3,
alpha_1 = 0, beta_1 = 1 and anchor 2, the perturbed 1 x 1 Jacobi matrix
is [[2]] with eigendata V = 1, lambda = 2; the returned weight is 1
while beta_0^2 * v[0,0]^2 = 9. -/
theorem C7_counterexample :
    gauss_radau_jacobi abFam 1 2 =
      (1 : Matrix (Fin 1) (Fin 1) ℝ) * Matrix.diagonal (fun _ => (2 : ℝ)) *
        Matrix.transpose 1 ∧
    gauss_radau_weights (1 : Matrix (Fin 1) (Fin 1) ℝ) ⟨0, one_pos⟩ = 1 ∧
    (abFam 0).2 ^ 2 *
      ((1 : Matrix (Fin 1) (Fin 1) ℝ) ⟨0, one_pos⟩ ⟨0, one_pos⟩) ^ 2 = 9 ∧
    (1 : ℝ) ≠ 9 := by
  refine ⟨?_, ?_, ?_, by norm_num⟩
  · rw [Matrix.transpose_one, Matrix.mul_one, Matrix.one_mul]
    ext i k
    fin_cases i
    fin_cases k
    simp only [gauss_radau_jacobi, jacobi_matrix, radau_mod_ab, r_eval, abFam,
      Matrix.of_apply, Matrix.diagonal]
    norm_num
  · simp only [gauss_radau_weights, Matrix.one_apply_eq]
    norm_num
  · simp only [abFam, Matrix.one_apply_eq]
    norm_num

/-- C7 (amended): gauss_radau_quadrature(N, anchor) eigendecomposes the
N x N Jacobi matrix whose last diagonal entry is perturbed by
r_N(anchor) * beta_N: the nodes are its eigenvalues (the columns of V
are eigenvectors with the nodes as eigenvalues), one node is pinned at
the anchor — the vector of polynomial values at the anchor is an
eigenvector with eigenvalue anchor, and it is nonzero — and the weights
are the squared first components v[0,:]^2 of the eigenvectors with NO
beta_0^2 factor, so they sum to 1 rather than to beta_0^2. -/
theorem C7_gauss_radau (N : ℕ) (hN : 0 < N) (abf : ℕ → ℝ × ℝ) (anchor : ℝ)
    (hb0 : (abf 0).2 ≠ 0) (hb : ∀ k, 1 ≤ k → k ≤ N → (abf k).2 ≠ 0)
    (hp : ∀ j, j < N → eval_driver abf anchor j ≠ 0)
    (V : Matrix (Fin N) (Fin N) ℝ) (lamb : Fin N → ℝ)
    (hdec : gauss_radau_jacobi abf N anchor =
      V * Matrix.diagonal lamb * Matrix.transpose V)
    (horth : V * Matrix.transpose V = 1) :
    (∀ i, (gauss_radau_jacobi abf N anchor).mulVec (fun j => V j i) =
      lamb i • (fun j => V j i)) ∧
    ((gauss_radau_jacobi abf N anchor).mulVec (radau_eigvec abf anchor N) =
      anchor • radau_eigvec abf anchor N ∧ radau_eigvec abf anchor N ≠ 0) ∧
    ∑ i, gauss_radau_weights V i = 1 := by
  refine ⟨fun i => eigencols _ V lamb hdec horth i,
    ⟨radau_anchor_eigvec abf anchor N hb0 hb hp, ?_⟩, ?_⟩
  · intro hzero
    have h0 := congrFun hzero ⟨0, hN⟩
    have : eval_driver abf anchor 0 = 0 := h0
    simp only [eval_driver] at this
    exact (one_div_ne_zero hb0) this
  · have hz := sum_sq_row_eq_one V horth ⟨0, hN⟩
    calc ∑ i, gauss_radau_weights V i
        = ∑ i, (V ⟨0, hN⟩ i) ^ 2 := Finset.sum_congr rfl fun i _ => rfl
      _ = 1 := hz

/-- Witness for C7: the family with beta_0 = 3, beta_k = 1, anchor 2
(perturbed matrix [[2]], eigendata V = 1, lambda = 2): the polynomial
value vector is an eigenvector with eigenvalue 2, and the single Radau
weight sums to 1 (not beta_0^2 = 9). -/
theorem C7_gauss_radau_witness :
    ((gauss_radau_jacobi abFam 1 2).mulVec (radau_eigvec abFam 2 1) =
      (2 : ℝ) • radau_eigvec abFam 2 1) ∧
    ∑ i, gauss_radau_weights (1 : Matrix (Fin 1) (Fin 1) ℝ) i = 1 := by
  have hdec : gauss_radau_jacobi abFam 1 2 =
      (1 : Matrix (Fin 1) (Fin 1) ℝ) * Matrix.diagonal (fun _ => (2 : ℝ)) *
        Matrix.transpose 1 := by
    rw [Matrix.transpose_one, Matrix.mul_one, Matrix.one_mul]
    ext i k
    fin_cases i
    fin_cases k
    simp only [gauss_radau_jacobi, jacobi_matrix, radau_mod_ab, r_eval, abFam,
      Matrix.of_apply, Matrix.diagonal]
    norm_num
  have horth : (1 : Matrix (Fin 1) (Fin 1) ℝ) * Matrix.transpose 1 =
      (1 : Matrix (Fin 1) (Fin 1) ℝ) := by
    rw [Matrix.transpose_one, Matrix.mul_one]
  have hb0 : (abFam 0).2 ≠ 0 := by
    simp only [abFam]
    norm_num
  have hb : ∀ k, 1 ≤ k → k ≤ 1 → (abFam k).2 ≠ 0 := by
    intro k h1 h2
    obtain rfl : k = 1 := by omega
    simp only [abFam]
    norm_num
  have hp : ∀ j, j < 1 → eval_driver abFam 2 j ≠ 0 := by
    intro j hj
    obtain rfl : j = 0 := by omega
    simp only [eval_driver, abFam]
    norm_num
  have h := C7_gauss_radau 1 one_pos abFam 2 hb0 hb hp 1 (fun _ => (2 : ℝ)) hdec horth
  exact ⟨h.2.1.1, h.2.2⟩

/-- Witness for C3: a run with concrete distinct strengths 10, 11, 12,
13 showing the exact three rows and the threading of each strength. -/
theorem C3_compute_subintervals_witness :
    compute_subintervals 0 5 [(1, 10, 11), (3, 12, 13)] =
      .ok [(0, 1, 0, 10), (1, 3, 11, 12), (3, 5, 13, 0)] :=
  (C3_compute_subintervals 10 11 12 13).1

/-- Witness for C6: on the empty table both modification calls with
target degree 0 report the insufficient-margin error at once. -/
theorem C6_modification_margin_witness :
    recurrence_lin_mod_jacobi abFam [] 0 0 =
      .error "Error, requires more recurrence pairs" ∧
    recurrence_quad_mod_jacobi abFam [] 0 0 =
      .error "Error, requires more recurrence pairs" := by
  constructor
  · exact (C6_modification_margin abFam [] 0 0 0).1.mpr (by norm_num)
  · exact (C6_modification_margin abFam [] 0 0 0).2.mpr (by norm_num)

end UncertainSCI

